import Mathlib

/-!
# LearnCppInsights: Dec2Bin, Calculator, Gravity

A shallow embedding of the three console programs of the repository and the
properties their specification states about them.

* `std::cout` is modelled by explicit state passing: every printing function
  takes the text written so far and returns the text extended by what it
  prints.
* `std::cin` is modelled by parameters: the value read is an argument.
* `int` is modelled by `Int`. The only arithmetic on `int` is the subtraction in
  `printAndDecrementBit`, which `printBinary` reaches with operands in `[0,255]`,
  so no operation of the programs leaves the range of a 32-bit `int`.
* `double` is modelled by `Double`, an executable model of IEEE-754 binary64
  with round-to-nearest-even, the arithmetic of `double` on the platforms the
  programs are built for.
-/

namespace LearnCpp

/-! ## Dec2Bin (`src/chapterO/Dec2Bin/main.cpp`) -/

namespace Dec2Bin

/-- The function `printAndDecrementBit` of Dec2Bin: `isOne` is `num >= powerOfTwo`;
the digit is appended to the text written so far, and the returned pair holds
that text and the function's `int` result. -/
def printAndDecrementBit (out : String) (num powerOfTwo : Int) : String × Int :=
  let isOne : Bool := decide (num ≥ powerOfTwo)
  (out.push (if isOne then '1' else '0'), if isOne then num - powerOfTwo else num)

/-- The function `printBinary` of Dec2Bin, as a transformer of the text written to
`std::cout`. The local `num` is reassigned after every call, as in the source. -/
def printBinary (out : String) (num : Int) : String :=
  if !(decide (num ≥ 0) && decide (num ≤ 255)) then
    out ++ "Error! Please enter a valid number!\n"
  else
    let (out, num) := printAndDecrementBit out num 128
    let (out, num) := printAndDecrementBit out num 64
    let (out, num) := printAndDecrementBit out num 32
    let (out, num) := printAndDecrementBit out num 16
    let out := out.push ' '
    let (out, num) := printAndDecrementBit out num 8
    let (out, num) := printAndDecrementBit out num 4
    let (out, num) := printAndDecrementBit out num 2
    let (out, _) := printAndDecrementBit out num 1
    out.push '\n'

/-- The calls of `printAndDecrementBit` for the powers `ps` in order, each call
receiving the text and the value returned by the previous one. -/
def applyPowers (ps : List Int) (st : String × Int) : String × Int :=
  ps.foldl (fun st p => printAndDecrementBit st.1 st.2 p) st

/-- The `else` branch of `printBinary` with a record of the values `num` takes:
the text written, and the value returned by each of the eight calls in order. -/
def printBinaryTrace (out : String) (num : Int) : String × List Int :=
  let (out, r128) := printAndDecrementBit out num 128
  let (out, r64) := printAndDecrementBit out r128 64
  let (out, r32) := printAndDecrementBit out r64 32
  let (out, r16) := printAndDecrementBit out r32 16
  let out := out.push ' '
  let (out, r8) := printAndDecrementBit out r16 8
  let (out, r4) := printAndDecrementBit out r8 4
  let (out, r2) := printAndDecrementBit out r4 2
  let (out, r1) := printAndDecrementBit out r2 1
  (out.push '\n', [r128, r64, r32, r16, r8, r4, r2, r1])

/-- The powers of two `printBinary` passes to `printAndDecrementBit`, in the order
of the calls. -/
def powers : List Int := [128, 64, 32, 16, 8, 4, 2, 1]

/-- The sum of the powers of two whose digit in `digits` is `'1'`. -/
def onesSum (digits : List Char) : Int :=
  ((digits.zip powers).map (fun cp => if cp.1 = '1' then cp.2 else 0)).sum

/-- Value of a list of binary digit characters read as a base-2 numeral, most
significant digit first (`'1'` counts one, every other character zero). -/
def binValue (cs : List Char) : Nat :=
  cs.foldl (fun acc c => 2 * acc + (if c = '1' then 1 else 0)) 0

/-- The printed text with the space and the newline removed. -/
def stripSeparators (s : String) : List Char :=
  s.data.filter (fun c => c != ' ' && c != '\n')

end Dec2Bin


/-! ## The type `double`

IEEE-754 binary64. Every finite binary64 value is an integer multiple of
`2^(-1074)`, so a finite value is kept as a sign and a magnitude counted in
that unit; the sign is kept for zero as well. The arithmetic operations compute
the exact result and round it to the nearest representable value, ties to even;
a rounded magnitude of `2^1024` (`2^2098` units) or more overflows to infinity.
The type also has magnitudes that are not binary64 values (more than 53
significant bits); `isBinary64` singles out the values of the C++ type, and every
operation returns one of them.
-/

/-- Value of a C++ `double`: NaN, an infinity, or the finite value
`(-1)^neg * mag * 2^(-1074)`. -/
inductive Double where
  | nan : Double
  | inf (neg : Bool) : Double
  | fin (neg : Bool) (mag : Nat) : Double
deriving DecidableEq

namespace Double

/-- Floor of the base-2 logarithm by repeated halving (`0` for `0` and `1`). -/
def log2Fuel : Nat → Nat → Nat
  | 0, _ => 0
  | fuel + 1, n => if 2 ≤ n then log2Fuel fuel (n / 2) + 1 else 0

/-- Floor of the base-2 logarithm; the fuel `n` is never used up. -/
def ilog2 (n : Nat) : Nat := log2Fuel n n

/-- The integer nearest to `a / b`, ties to the even one. -/
def roundHalfEven (a b : Nat) : Nat :=
  let k := a / b
  let r := a % b
  if 2 * r < b then k else if b < 2 * r then k + 1 else if k % 2 = 0 then k else k + 1

/-- Number of low bits a magnitude with integer part `q` loses to fit 53 bits. -/
def roundShift (q : Nat) : Nat := ilog2 q - 52

/-- Round the exact magnitude `a / b` (in units of `2^(-1074)`) to 53 significant
bits, ties to even. Magnitudes below `2^53` units (subnormals and the first
normal binade) are rounded to an integer number of units. -/
def roundMag (a b : Nat) : Nat :=
  let s := roundShift (a / b)
  roundHalfEven a (b * 2 ^ s) * 2 ^ s

/-- The binary64 value nearest to `(-1)^neg * a / b` units, with overflow to
infinity. -/
def ofRatio (neg : Bool) (a b : Nat) : Double :=
  let m := roundMag a b
  if m < 2 ^ 2098 then fin neg m else inf neg

/-- Whether a magnitude is that of a finite binary64 value. -/
def representable (m : Nat) : Bool :=
  decide (m < 2 ^ 2098) && decide (m % 2 ^ roundShift m = 0)

/-- Whether a value of the model is a value of the C++ type. -/
def isBinary64 : Double → Bool
  | fin _ m => representable m
  | _ => true

/-- Conversion `int -> double`. -/
def ofInt (i : Int) : Double := ofRatio (decide (i < 0)) (i.natAbs * 2 ^ 1074) 1

/-- A non-negative decimal literal `num / den`, such as `9.8 = 98 / 10`. -/
def ofDecimal (num den : Nat) : Double := ofRatio false (num * 2 ^ 1074) den

/-- The signed number of units of a finite value. -/
def signed (neg : Bool) (m : Nat) : Int := if neg then -(m : Int) else (m : Int)

/-- Unary minus. -/
def neg : Double → Double
  | nan => nan
  | inf s => inf (!s)
  | fin s m => fin (!s) m

/-- The binary64 value of an exact sum of `z` units; `s` is the sign given to an
exact zero. -/
def roundSum (s : Bool) (z : Int) : Double :=
  if z = 0 then fin s 0 else ofRatio (decide (z < 0)) z.natAbs 1

/-- Binary `+`. An exact zero sum is `+0` unless both operands are negative. -/
def add : Double → Double → Double
  | nan, _ => nan
  | _, nan => nan
  | inf s, inf t => if s = t then inf s else nan
  | inf s, fin _ _ => inf s
  | fin _ _, inf t => inf t
  | fin s m, fin t n => roundSum (s && t) (signed s m + signed t n)

/-- Binary `-`. -/
def sub (x y : Double) : Double := add x (neg y)

/-- Binary `*`. -/
def mul : Double → Double → Double
  | nan, _ => nan
  | _, nan => nan
  | inf s, inf t => inf (xor s t)
  | inf s, fin t n => if n = 0 then nan else inf (xor s t)
  | fin s m, inf t => if m = 0 then nan else inf (xor s t)
  | fin s m, fin t n => ofRatio (xor s t) (m * n) (2 ^ 1074)

/-- Binary `/`. -/
def div : Double → Double → Double
  | nan, _ => nan
  | _, nan => nan
  | inf _, inf _ => nan
  | inf s, fin t _ => inf (xor s t)
  | fin s _, inf t => fin (xor s t) 0
  | fin s m, fin t n =>
    if n = 0 then (if m = 0 then nan else inf (xor s t))
    else ofRatio (xor s t) (m * 2 ^ 1074) n

/-- Comparison `<=`; false when an operand is NaN. -/
def le : Double → Double → Bool
  | nan, _ => false
  | _, nan => false
  | inf s, inf t => s || !t
  | inf s, fin _ _ => s
  | fin _ _, inf t => !t
  | fin s m, fin t n => decide (signed s m ≤ signed t n)

/-- Comparison `<`; false when an operand is NaN. -/
def lt : Double → Double → Bool
  | nan, _ => false
  | _, nan => false
  | inf s, inf t => s && !t
  | inf s, fin _ _ => s
  | fin _ _, inf t => !t
  | fin s m, fin t n => decide (signed s m < signed t n)

/-- Comparison `==`; false when an operand is NaN, true for `+0 == -0`. -/
def eq : Double → Double → Bool
  | nan, _ => false
  | _, nan => false
  | inf s, inf t => s == t
  | inf _, fin _ _ => false
  | fin _ _, inf _ => false
  | fin s m, fin t n => decide (signed s m = signed t n)

/-- Comparison `!=`, the negation of `==` (true when an operand is NaN). -/
def ne (x y : Double) : Bool := !(eq x y)

/-- Whether a value is finite (neither NaN nor an infinity). -/
def isFinite : Double → Bool
  | fin _ _ => true
  | _ => false

/-- The exact rational value of a finite value (`0` for NaN and the infinities). -/
def toRat : Double → ℚ
  | fin s m => (signed s m : ℚ) / 2 ^ 1074
  | _ => 0

/-! ### Text of a `double` written to a stream

`std::ostream` with its default flags writes a `double` as `printf` does with
`%g` and precision 6: six significant decimal digits, correctly rounded,
trailing zeros removed, in fixed notation when the decimal exponent `x` has
`-4 <= x < 6` and in scientific notation otherwise. -/

/-- Floor of the base-10 logarithm by repeated division (`0` below `10`). -/
def log10Fuel : Nat → Nat → Nat
  | 0, _ => 0
  | fuel + 1, n => if 10 ≤ n then log10Fuel fuel (n / 10) + 1 else 0

/-- The least `e` with `q <= p * 10^e`, for `p > 0`, by repeated multiplication. -/
def scaleFuel : Nat → Nat → Nat → Nat
  | 0, _, _ => 0
  | fuel + 1, p, q => if p < q then scaleFuel fuel (p * 10) q + 1 else 0

/-- Decimal exponent of the positive ratio `p / q`: the `x` with
`10^x <= p / q < 10^(x+1)`. -/
def decimalExponent (p q : Nat) : Int :=
  if q ≤ p then (log10Fuel (p / q) (p / q) : Nat) else -(scaleFuel q p q : Nat)

/-- The ratio `p / q` scaled to six digits before the point, `p / q * 10^(5 - x)`,
rounded to an integer. -/
def scaledDigits (p q : Nat) (x : Int) : Nat :=
  if x ≤ 5 then roundHalfEven (p * 10 ^ (5 - x).toNat) q
  else roundHalfEven p (q * 10 ^ (x - 5).toNat)

/-- Six significant digits and the decimal exponent of `p / q` after rounding
(rounding up to `1000000` moves to the next exponent). -/
def significand (p q : Nat) : Nat × Int :=
  let x := decimalExponent p q
  let d := scaledDigits p q x
  if 1000000 ≤ d then (d / 10, x + 1) else (d, x)

/-- Remove the zeros at the end of a digit list. -/
def stripZeros (ds : List Char) : List Char :=
  (ds.reverse.dropWhile (fun c => c == '0')).reverse

/-- Append a fraction to an integer part, with the point only when digits follow. -/
def withFraction (ip frac : List Char) : List Char :=
  if frac.isEmpty then ip else ip ++ '.' :: frac

/-- The magnitude `p / q > 0` in the `%g` format with precision 6. -/
def showMag (p q : Nat) : List Char :=
  let (d, x) := significand p q
  let ds := Nat.toDigits 10 d
  if x < -4 ∨ 6 ≤ x then
    let e := Nat.toDigits 10 x.natAbs
    withFraction (ds.take 1) (stripZeros (ds.drop 1))
      ++ 'e' :: (if x < 0 then '-' else '+') :: (if e.length < 2 then '0' :: e else e)
  else if 0 ≤ x then
    withFraction (ds.take (x.toNat + 1)) (stripZeros (ds.drop (x.toNat + 1)))
  else
    '0' :: '.' :: (List.replicate ((-x).toNat - 1) '0' ++ stripZeros ds)

/-- The text `std::cout << x` writes for a `double` under the default flags. -/
def showDouble : Double → String
  | nan => "nan"
  | inf s => if s then "-inf" else "inf"
  | fin s m =>
    String.mk ((if s then ['-'] else []) ++ (if m = 0 then ['0'] else showMag m (2 ^ 1074)))

end Double

/-! ## Calculator (`src/chapter4/Calculator/main.cpp`) -/

namespace Calculator

open Double

/-- The value assigned to `result` by the `if`/`else if` chain of
`calculateExpression`, or `none` when the chain ends in the `else` branch, which
prints the message and returns. -/
def calculateResult (num1 num2 : Double) (op : Char) : Option Double :=
  if op = '+' then some (add num1 num2)
  else if op = '-' then some (sub num1 num2)
  else if op = '*' then some (mul num1 num2)
  else if op = '/' ∧ ne num2 (ofInt 0) = true then some (div num1 num2)
  else none

/-- The function `calculateExpression` of Calculator, as a transformer of the text
written to `std::cout`. -/
def calculateExpression (out : String) (num1 num2 : Double) (op : Char) : String :=
  match calculateResult num1 num2 op with
  | none => out ++ "Invalid input, please try again\n"
  | some result =>
    ((((((out ++ showDouble num1).push ' ').push op).push ' ' ++ showDouble num2)
      ++ " is ") ++ showDouble result).push '\n'

/-- The invalid-input message of `calculateExpression`. -/
def invalidMessage : String := "Invalid input, please try again\n"

/-- The result line `<num1> <op> <num2> is <result>` with its newline. -/
def resultLine (num1 num2 : Double) (op : Char) (result : Double) : String :=
  showDouble num1 ++ " " ++ String.singleton op ++ " " ++ showDouble num2 ++ " is "
    ++ showDouble result ++ "\n"

end Calculator

/-! ## Gravity (`src/chapter4/Gravity/main.cpp`) -/

namespace Gravity

open Double

/-- The loop `while (exponent--) result *= base;` of `calculateExponent`. The
counter is a `Nat`: the loop counts a non-negative `int` down to zero. -/
def calculateExponentLoop (base : Double) : Nat → Double → Double
  | 0, result => result
  | exponent + 1, result => calculateExponentLoop base exponent (mul result base)

/-- The function `calculateExponent` of Gravity; `result` starts as `1`. -/
def calculateExponent (base : Double) (exponent : Nat) : Double :=
  calculateExponentLoop base exponent (ofInt 1)

/-- The loop of `calculateExponent` with a count of the multiplications it
performs: `count` is increased at every `result *= base`. -/
def calculateExponentCount (base : Double) : Nat → Double → Nat → Double × Nat
  | 0, result, count => (result, count)
  | exponent + 1, result, count =>
    calculateExponentCount base exponent (mul result base) (count + 1)

/-- The power `base^n` in binary64 arithmetic: `1` for `n = 0`, and `base^n * base`
for `n + 1`. -/
def powDouble (base : Double) : Nat → Double
  | 0 => ofInt 1
  | n + 1 => mul (powDouble base n) base

/-- The constant `gravity = 9.8` of `calculateHeight`. -/
def gravity : Double := ofDecimal 98 10

/-- The function `calculateHeight` of Gravity:
`towerHeight - gravity * calculateExponent(seconds, 2) / 2`. -/
def calculateHeight (towerHeight seconds : Double) : Double :=
  sub towerHeight (div (mul gravity (calculateExponent seconds 2)) (ofInt 2))

/-- The distance fallen after `t` seconds as `calculateHeight` computes it for the
`int` second `t`: `gravity * calculateExponent(t, 2) / 2`. -/
def fallDistance (t : Int) : Double :=
  div (mul gravity (calculateExponent (ofInt t) 2)) (ofInt 2)

/-- The function `calculatePrintHeight` of Gravity, as a transformer of the text
written to `std::cout`. -/
def calculatePrintHeight (out : String) (towerHeight seconds : Double) : String :=
  let currHeight := calculateHeight towerHeight seconds
  if le currHeight (ofDecimal 0 10) = true then
    ((out ++ "At ") ++ showDouble seconds) ++ " seconds, the ball is on the ground.\n"
  else
    ((((out ++ "At ") ++ showDouble seconds) ++ " seconds, the ball is at height: ")
      ++ showDouble currHeight) ++ " meters\n"

/-- The function `getHeight` of Gravity: the prompt is written, and the value read
from `std::cin` is the parameter `input`. -/
def getHeight (out : String) (input : Double) : String × Double :=
  (out ++ "Enter the height of the tower in meters: ", input)

/-- The loop `for (int t = 0; t <= maxSeconds; t++)` of `main`, from the
current `t` on. -/
def mainLoop (towerHeight : Double) (maxSeconds : Int) (t : Int) (out : String) : String :=
  if t ≤ maxSeconds then
    mainLoop towerHeight maxSeconds (t + 1) (calculatePrintHeight out towerHeight (ofInt t))
  else out
termination_by (maxSeconds + 1 - t).toNat
decreasing_by omega

/-- The function `main` of Gravity: the text written to `std::cout` when `input`
is the height read from `std::cin`. -/
def main (input : Double) : String :=
  let maxSeconds : Int := 5
  let (out, towerHeight) := getHeight "" input
  mainLoop towerHeight maxSeconds 0 out

/-- The text `calculatePrintHeight(towerHeight, t)` writes for the `int` second `t`. -/
def printedLine (H : Double) (t : Int) : String := calculatePrintHeight "" H (ofInt t)

/-- The binary64 values of `gravity * t^2 / 2` for `t = 0..5`, in units of
`2^(-1074)`: `0`, `4.9`, `19.6`, `44.1`, `78.4` and `122.5` as rounded by the
program. -/
def fallUnits : Int → Nat
  | 1 => 2758454771764429 * 2 ^ 1025
  | 2 => 2758454771764429 * 2 ^ 1027
  | 3 => 6206523236469965 * 2 ^ 1027
  | 4 => 2758454771764429 * 2 ^ 1029
  | 5 => 8620171161763841 * 2 ^ 1028
  | _ => 0

/-- The line `calculatePrintHeight` prints when the ball is on the ground. -/
def groundLine (seconds : Double) : String :=
  "At " ++ showDouble seconds ++ " seconds, the ball is on the ground.\n"

/-- The line `calculatePrintHeight` prints when the ball is in the air. -/
def heightLine (seconds height : Double) : String :=
  "At " ++ showDouble seconds ++ " seconds, the ball is at height: " ++ showDouble height
    ++ " meters\n"

end Gravity

end LearnCpp

/-! ## Theorems -/

set_option exponentiation.threshold 4096

/-! ### Rounding to 53 significant bits -/

namespace LearnCpp.Double

theorem log2Fuel_spec : ∀ (fuel n : Nat), n ≤ fuel → 1 ≤ n →
    2 ^ log2Fuel fuel n ≤ n ∧ n < 2 ^ (log2Fuel fuel n + 1)
  | 0, n, h, h1 => by omega
  | fuel + 1, n, h, h1 => by
    unfold log2Fuel
    split
    · have ih := log2Fuel_spec fuel (n / 2) (by omega) (by omega)
      rw [pow_succ, pow_succ]
      rw [pow_succ] at ih
      omega
    · simp
      omega

theorem ilog2_spec (n : Nat) (h : 1 ≤ n) : 2 ^ ilog2 n ≤ n ∧ n < 2 ^ (ilog2 n + 1) :=
  log2Fuel_spec n n (Nat.le_refl n) h

theorem ilog2_zero : ilog2 0 = 0 := rfl

theorem ilog2_mono {m n : Nat} (h : m ≤ n) : ilog2 m ≤ ilog2 n := by
  rcases Nat.eq_zero_or_pos m with h0 | h0
  · subst h0
    rw [ilog2_zero]
    exact Nat.zero_le _
  · have hm := ilog2_spec m h0
    have hn := ilog2_spec n (by omega)
    have : 2 ^ ilog2 m < 2 ^ (ilog2 n + 1) := by omega
    have := (Nat.pow_lt_pow_iff_right (by norm_num : 1 < 2)).1 this
    omega

theorem roundHalfEven_ge (a d : Nat) : a / d ≤ roundHalfEven a d := by
  unfold roundHalfEven
  simp only
  split_ifs <;> omega

theorem roundHalfEven_le (a d : Nat) : roundHalfEven a d ≤ a / d + 1 := by
  unfold roundHalfEven
  simp only
  split_ifs <;> omega

theorem roundHalfEven_mono {a a' : Nat} (d : Nat) (h : a ≤ a') :
    roundHalfEven a d ≤ roundHalfEven a' d := by
  have hk : a / d ≤ a' / d := Nat.div_le_div_right h
  rcases Nat.eq_or_lt_of_le hk with hk | hk
  · have e1 := Nat.div_add_mod a d
    have e2 := Nat.div_add_mod a' d
    rw [← hk] at e2
    have hr : a % d ≤ a' % d := by omega
    unfold roundHalfEven
    simp only
    rw [← hk]
    split_ifs <;> omega
  · have h1 := roundHalfEven_le a d
    have h2 := roundHalfEven_ge a' d
    omega

theorem roundHalfEven_ge_of_le {a d k : Nat} (hd : 0 < d) (h : k * d ≤ a) :
    k ≤ roundHalfEven a d :=
  Nat.le_trans ((Nat.le_div_iff_mul_le hd).2 h) (roundHalfEven_ge a d)

theorem roundHalfEven_le_of_lt {a d k : Nat} (hd : 0 < d) (h : a < k * d) :
    roundHalfEven a d ≤ k := by
  have h1 := (Nat.div_lt_iff_lt_mul hd).2 h
  have h2 := roundHalfEven_le a d
  omega

/-- Rounding to 53 significant bits is monotone. -/
theorem roundMag_mono {a a' : Nat} (b : Nat) (hb : 0 < b) (h : a ≤ a') :
    roundMag a b ≤ roundMag a' b := by
  have hq : a / b ≤ a' / b := Nat.div_le_div_right h
  have hs : roundShift (a / b) ≤ roundShift (a' / b) := by
    unfold roundShift
    have := ilog2_mono hq
    omega
  unfold roundMag
  simp only
  rcases Nat.eq_or_lt_of_le hs with hs | hs
  · rw [← hs]
    exact Nat.mul_le_mul_right _ (roundHalfEven_mono _ h)
  · -- the two quotients lie in different binades
    set s := roundShift (a / b) with hsdef
    set s' := roundShift (a' / b) with hs'def
    have hq'pos : 1 ≤ a' / b := by
      rcases Nat.eq_zero_or_pos (a' / b) with h0 | h0
      · rw [h0] at hs'def
        simp [roundShift, ilog2_zero] at hs'def
        omega
      · exact h0
    have hl' : ilog2 (a' / b) = 52 + s' := by
      unfold roundShift at hs'def
      omega
    have hq'lo : 2 ^ (52 + s') ≤ a' / b := by
      rw [← hl']
      exact (ilog2_spec _ hq'pos).1
    have ha'lo : 2 ^ 52 * (b * 2 ^ s') ≤ a' := by
      have := (Nat.le_div_iff_mul_le hb).1 hq'lo
      calc 2 ^ 52 * (b * 2 ^ s') = 2 ^ (52 + s') * b := by ring
        _ ≤ a' := this
    have hdpos' : 0 < b * 2 ^ s' := Nat.mul_pos hb (Nat.pow_pos (by norm_num))
    have hdpos : 0 < b * 2 ^ s := Nat.mul_pos hb (Nat.pow_pos (by norm_num))
    have hR' : 2 ^ 52 ≤ roundHalfEven a' (b * 2 ^ s') := roundHalfEven_ge_of_le hdpos' ha'lo
    have hqhi : a / b < 2 ^ (53 + s) := by
      rcases Nat.eq_zero_or_pos (a / b) with h0 | h0
      · rw [h0]
        exact Nat.pow_pos (by norm_num)
      · have := (ilog2_spec _ h0).2
        have hl : ilog2 (a / b) + 1 ≤ 53 + s := by
          unfold roundShift at hsdef
          omega
        exact Nat.lt_of_lt_of_le this (Nat.pow_le_pow_right (by norm_num) hl)
    have hahi : a < 2 ^ 53 * (b * 2 ^ s) := by
      have := (Nat.div_lt_iff_lt_mul hb).1 hqhi
      calc a < 2 ^ (53 + s) * b := this
        _ = 2 ^ 53 * (b * 2 ^ s) := by ring
    have hR : roundHalfEven a (b * 2 ^ s) ≤ 2 ^ 53 := roundHalfEven_le_of_lt hdpos hahi
    calc roundHalfEven a (b * 2 ^ s) * 2 ^ s ≤ 2 ^ 53 * 2 ^ s := Nat.mul_le_mul_right _ hR
      _ = 2 ^ 52 * 2 ^ (s + 1) := by ring
      _ ≤ 2 ^ 52 * 2 ^ s' := Nat.mul_le_mul_left _ (Nat.pow_le_pow_right (by norm_num) hs)
      _ ≤ roundHalfEven a' (b * 2 ^ s') * 2 ^ s' := Nat.mul_le_mul_right _ hR'

end LearnCpp.Double

/-! ### Order of `double` values -/

namespace LearnCpp.Double

set_option maxRecDepth 100000 in
theorem ofInt_zero : ofInt 0 = fin false 0 := by decide

set_option maxRecDepth 100000 in
theorem ofDecimal_zero : ofDecimal 0 10 = fin false 0 := by decide

theorem signed_false (m : Nat) : signed false m = (m : Int) := rfl

theorem signed_true (m : Nat) : signed true m = -(m : Int) := rfl

theorem add_nan_left (y : Double) : add nan y = nan := by
  cases y <;> rfl

theorem eq_imp_le {x y : Double} (h : eq x y = true) : le x y = true := by
  cases x <;> cases y <;> simp_all [le, eq]

theorem le_trans_double {x y z : Double} (h1 : le x y = true) (h2 : le y z = true) :
    le x z = true := by
  cases x <;> cases y <;> cases z <;> simp_all [le] <;> first | omega | skip
  all_goals (rename_i s t u; cases s <;> cases t <;> cases u <;> simp_all)

theorem lt_imp_not_le {x y : Double} (h : lt x y = true) : le y x = false := by
  cases x <;> cases y <;> simp_all [le, lt]

theorem le_imp_not_lt {x y : Double} (h : le x y = true) : lt y x = false := by
  cases x <;> cases y <;> simp_all [le, lt]
  rename_i s t
  cases s <;> cases t <;> simp_all

end LearnCpp.Double

namespace LearnCpp.Double

/-- A rounded non-positive value is below a rounded non-negative one. -/
theorem ofRatio_true_le_false (a b a' b' : Nat) :
    le (ofRatio true a b) (ofRatio false a' b') = true := by
  unfold ofRatio
  simp only
  split_ifs <;> simp [le, signed]
  omega

theorem ofRatio_true_le_zero (a b : Nat) (s : Bool) :
    le (ofRatio true a b) (fin s 0) = true := by
  unfold ofRatio
  simp only
  split_ifs <;> cases s <;> simp [le, signed]

theorem zero_le_ofRatio_false (a b : Nat) (s : Bool) :
    le (fin s 0) (ofRatio false a b) = true := by
  unfold ofRatio
  simp only
  split_ifs <;> cases s <;> simp [le, signed]

theorem ofRatio_false_mono {a a' : Nat} (b : Nat) (hb : 0 < b) (h : a ≤ a') :
    le (ofRatio false a b) (ofRatio false a' b) = true := by
  have hm := roundMag_mono b hb h
  unfold ofRatio
  simp only
  split_ifs <;> simp [le, signed] <;> omega

theorem ofRatio_true_mono {a a' : Nat} (b : Nat) (hb : 0 < b) (h : a ≤ a') :
    le (ofRatio true a' b) (ofRatio true a b) = true := by
  have hm := roundMag_mono b hb h
  unfold ofRatio
  simp only
  split_ifs <;> simp [le, signed] <;> omega

theorem add_fin_fin (s t : Bool) (m n : Nat) :
    add (fin s m) (fin t n) = roundSum (s && t) (signed s m + signed t n) := rfl

/-- Rounding an exact sum is monotone, whatever sign an exact zero gets. -/
theorem roundSum_mono (s s' : Bool) {z z' : Int} (h : z ≤ z') :
    le (roundSum s z) (roundSum s' z') = true := by
  unfold roundSum
  by_cases hz : z = 0 <;> by_cases hz' : z' = 0
  · simp [hz, hz', le, signed]
  · have hlt : ¬ z' < 0 := by omega
    simp only [hz, hz', hlt, if_true, if_false, decide_False]
    exact zero_le_ofRatio_false _ _ _
  · have hlt : z < 0 := by omega
    simp only [hz, hz', hlt, if_true, if_false, decide_True]
    exact ofRatio_true_le_zero _ _ _
  · simp only [hz, hz', if_false]
    by_cases hn : z < 0 <;> by_cases hn' : z' < 0
    · simp only [hn, hn', decide_True]
      exact ofRatio_true_mono 1 (by norm_num) (by omega)
    · simp only [hn, hn', decide_True, decide_False]
      exact ofRatio_true_le_false _ _ _ _
    · omega
    · simp only [hn, hn', decide_False]
      exact ofRatio_false_mono 1 (by norm_num) (by omega)

/-- The operator `+` is monotone in its second operand over finite second operands,
for a first operand that is not NaN. -/
theorem add_mono_right {x : Double} (hx : x ≠ nan) {t t' : Bool} {n n' : Nat}
    (h : signed t n ≤ signed t' n') :
    le (add x (fin t n)) (add x (fin t' n')) = true := by
  cases x with
  | nan => exact absurd rfl hx
  | inf s => cases s <;> rfl
  | fin s m =>
    rw [add_fin_fin, add_fin_fin]
    exact roundSum_mono _ _ (by omega)

/-- The operator `-` is antitone in its second operand over finite second operands. -/
theorem sub_anti_right {x : Double} (hx : x ≠ nan) {t t' : Bool} {n n' : Nat}
    (h : signed t n ≤ signed t' n') :
    le (sub x (fin t' n')) (sub x (fin t n)) = true := by
  unfold sub neg
  apply add_mono_right hx
  cases t <;> cases t' <;> simp [signed] at h ⊢ <;> omega

/-- A value that is not above zero stays so when a non-negative finite value is
subtracted. -/
theorem sub_nonneg_le_zero {x : Double} (n : Nat) (h : le x (fin false 0) = true) :
    le (sub x (fin false n)) (fin false 0) = true := by
  have hx : x ≠ nan := by
    intro e
    rw [e] at h
    simp [le] at h
  have h1 : le (sub x (fin false n)) (sub x (fin false 0)) = true :=
    sub_anti_right hx (by simp [signed])
  have h2 : le (sub x (fin false 0)) (fin false 0) = true := by
    cases x with
    | nan => exact absurd rfl hx
    | inf s => cases s <;> simp_all [le, sub, neg, add]
    | fin s m =>
      have hm : signed s m ≤ 0 := by simpa [le, signed] using h
      show le (add (fin s m) (fin true 0)) (fin false 0) = true
      rw [add_fin_fin]
      have := @roundSum_mono (s && true) false (signed s m + signed true 0) 0
        (by simp [signed] at hm ⊢; omega)
      simpa [roundSum] using this
  exact le_trans_double h1 h2

end LearnCpp.Double

namespace LearnCpp.Double

theorem roundMag_one_one : roundMag 1 1 = 1 := by decide

theorem roundMag_pos {a : Nat} (h : 0 < a) : 0 < roundMag a 1 := by
  have := roundMag_mono 1 (by norm_num) (show 1 ≤ a from h)
  rw [roundMag_one_one] at this
  exact this

/-- Rounding keeps the sign: the rounded exact sum is `<= 0` exactly when the
exact sum is. -/
theorem roundSum_le_zero_iff (s : Bool) (z : Int) :
    le (roundSum s z) (fin false 0) = true ↔ z ≤ 0 := by
  unfold roundSum
  by_cases hz : z = 0
  · subst hz
    cases s <;> simp [le, signed]
  · rw [if_neg hz]
    by_cases hn : z < 0
    · simp only [hn, decide_True]
      constructor
      · intro _
        omega
      · intro _
        exact ofRatio_true_le_zero _ _ _
    · simp only [hn, decide_False]
      have hpos : 0 < roundMag z.natAbs 1 := roundMag_pos (by omega)
      constructor
      · intro h
        unfold ofRatio at h
        simp only at h
        split_ifs at h
        · simp [le, signed] at h
          omega
        · simp [le] at h
      · intro h
        omega

end LearnCpp.Double

/-! ### Accuracy of the arithmetic operators -/

namespace LearnCpp.Double

theorem roundHalfEven_error (a d : Nat) (hd : 0 < d) :
    2 * (roundHalfEven a d * d) ≤ 2 * a + d ∧ 2 * a ≤ 2 * (roundHalfEven a d * d) + d := by
  have e := Nat.div_add_mod a d
  have hr := Nat.mod_lt a hd
  have e' : (a / d + 1) * d = d * (a / d) + d := by ring
  have e'' : a / d * d = d * (a / d) := by ring
  unfold roundHalfEven
  simp only
  split_ifs <;> simp only [e', e''] <;> constructor <;> omega

/-- The rounded magnitude is within half a unit in the last place of the exact
one: `|roundMag a b - a / b| <= 2^s / 2` for the shift `s` of the binade. -/
theorem roundMag_error (a b : Nat) (hb : 0 < b) :
    2 * (roundMag a b * b) ≤ 2 * a + b * 2 ^ roundShift (a / b) ∧
    2 * a ≤ 2 * (roundMag a b * b) + b * 2 ^ roundShift (a / b) := by
  have h := roundHalfEven_error a (b * 2 ^ roundShift (a / b))
    (Nat.mul_pos hb (Nat.pow_pos (by norm_num)))
  have e : roundMag a b * b
      = roundHalfEven a (b * 2 ^ roundShift (a / b)) * (b * 2 ^ roundShift (a / b)) := by
    unfold roundMag
    simp only
    ring
  rw [e]
  exact h

theorem roundShift_pos_bound (q : Nat) (h : 1 ≤ roundShift q) :
    2 ^ (52 + roundShift q) ≤ q := by
  have hq : 1 ≤ q := by
    rcases Nat.eq_zero_or_pos q with h0 | h0
    · rw [h0] at h
      simp [roundShift, ilog2_zero] at h
    · exact h0
  have hl : ilog2 q = 52 + roundShift q := by
    unfold roundShift at h ⊢
    omega
  rw [← hl]
  exact (ilog2_spec q hq).1

/-- Relative accuracy of rounding: the rounded magnitude differs from the exact
ratio by at most `2^(-53)` of it, or by at most half a unit (`2^(-1075)`) in the
subnormal range. -/
theorem roundMag_tolerance (a b : Nat) (hb : 0 < b) :
    |(roundMag a b : ℚ) - (a : ℚ) / b| ≤ max ((a : ℚ) / b / 2 ^ 53) (1 / 2) := by
  obtain ⟨h1, h2⟩ := roundMag_error a b hb
  have hbq : (0 : ℚ) < b := by exact_mod_cast hb
  set s := roundShift (a / b) with hs
  have h1q : 2 * ((roundMag a b : ℚ) * b) ≤ 2 * a + b * 2 ^ s := by exact_mod_cast h1
  have h2q : 2 * (a : ℚ) ≤ 2 * ((roundMag a b : ℚ) * b) + b * 2 ^ s := by exact_mod_cast h2
  have hab : (a : ℚ) / b * b = a := by field_simp
  have hhalf : |(roundMag a b : ℚ) - (a : ℚ) / b| ≤ 2 ^ s / 2 := by
    rw [abs_le]
    constructor
    · have : ((a : ℚ) / b - 2 ^ s / 2 - roundMag a b) * b ≤ 0 := by nlinarith
      have := nonpos_of_mul_nonpos_left this hbq
      linarith
    · have : ((roundMag a b : ℚ) - (a : ℚ) / b - 2 ^ s / 2) * b ≤ 0 := by nlinarith
      have := nonpos_of_mul_nonpos_left this hbq
      linarith
  rcases Nat.eq_zero_or_pos s with h0 | h0
  · rw [h0] at hhalf
    exact le_trans (by simpa using hhalf) (le_max_right _ _)
  · have hq := roundShift_pos_bound (a / b) h0
    have hq' : ((2 ^ (52 + s) : Nat) : ℚ) ≤ (a : ℚ) / b := by
      have h3 : 2 ^ (52 + s) * b ≤ a := (Nat.le_div_iff_mul_le hb).1 hq
      have h4 : ((2 ^ (52 + s) : Nat) : ℚ) * b ≤ a := by exact_mod_cast h3
      rw [le_div_iff₀ hbq]
      exact h4
    have h5 : (2 : ℚ) ^ s / 2 ≤ (a : ℚ) / b / 2 ^ 53 := by
      rw [le_div_iff₀ (by positivity)]
      have : ((2 ^ (52 + s) : Nat) : ℚ) = 2 ^ s / 2 * 2 ^ 53 := by
        push_cast
        rw [pow_add]
        ring
      rw [← this]
      exact hq'
    exact le_trans (le_trans hhalf h5) (le_max_left _ _)

/-- Rounding an integer number of units: below `2^53` units the value is kept,
so the error is always within the relative bound. -/
theorem roundMag_one_tolerance (a : Nat) :
    |(roundMag a 1 : ℚ) - (a : ℚ)| ≤ (a : ℚ) / 2 ^ 53 := by
  have h := roundMag_tolerance a 1 (by norm_num)
  simp only [Nat.cast_one, div_one, Nat.div_one] at h
  rcases Nat.eq_zero_or_pos (roundShift a) with h0 | h0
  · have e : roundMag a 1 = a := by
      unfold roundMag
      simp only [Nat.div_one, h0]
      simp [roundHalfEven, Nat.mod_one]
    rw [e]
    simp
    positivity
  · have hq := roundShift_pos_bound a h0
    have ha : (2 : ℚ) ^ 52 ≤ a := by
      have h1 : 2 ^ 52 ≤ 2 ^ (52 + roundShift a) :=
        Nat.pow_le_pow_right (by norm_num) (by omega)
      have h2 : 2 ^ 52 ≤ a := Nat.le_trans h1 hq
      exact_mod_cast h2
    have : max ((a : ℚ) / 2 ^ 53) (1 / 2) = (a : ℚ) / 2 ^ 53 := by
      apply max_eq_left
      rw [le_div_iff₀ (by positivity)]
      have : (1 : ℚ) / 2 * 2 ^ 53 = 2 ^ 52 := by norm_num
      rw [this]
      exact ha
    rw [this] at h
    exact h

end LearnCpp.Double

namespace LearnCpp.Double

theorem ofRatio_finite {neg : Bool} {a b : Nat} (h : isFinite (ofRatio neg a b) = true) :
    ofRatio neg a b = fin neg (roundMag a b) := by
  unfold ofRatio at h ⊢
  simp only at h ⊢
  split_ifs at h ⊢
  · rfl
  · simp [isFinite] at h

theorem toRat_fin (s : Bool) (m : Nat) : toRat (fin s m) = (signed s m : ℚ) / 2 ^ 1074 := rfl

theorem signed_cast (neg : Bool) (m : Nat) :
    ((signed neg m : Int) : ℚ) = if neg then -(m : ℚ) else (m : ℚ) := by
  cases neg
  · rw [signed_false, Int.cast_natCast]
    rfl
  · rw [signed_true, Int.cast_neg, Int.cast_natCast]
    rfl

theorem abs_signed_sub (neg : Bool) (m x u : ℚ) (hu : 0 < u) :
    |(if neg then -m else m) / u - (if neg then -x else x) / u| = |m - x| / u := by
  rw [← sub_div, abs_div, abs_of_pos hu]
  cases neg
  · rfl
  · have e : (if true = true then -m else m) - (if true = true then -x else x) = -(m - x) := by
      rw [if_pos rfl, if_pos rfl]
      ring
    rw [e, abs_neg]

theorem toRat_fin_sub (neg : Bool) (m : Nat) (x : ℚ) :
    |toRat (fin neg m) - (if neg then -x else x) / 2 ^ 1074| = |(m : ℚ) - x| / 2 ^ 1074 := by
  rw [toRat_fin, signed_cast]
  exact abs_signed_sub neg _ _ _ (by positivity)

/-- A finite rounded value is within the tolerance of the exact ratio. -/
theorem ofRatio_tolerance (neg : Bool) (a b : Nat) (hb : 0 < b)
    (h : isFinite (ofRatio neg a b) = true) :
    |toRat (ofRatio neg a b) - (if neg then -((a : ℚ) / b) else (a : ℚ) / b) / 2 ^ 1074|
      ≤ max ((a : ℚ) / b / 2 ^ 53) (1 / 2) / 2 ^ 1074 := by
  rw [ofRatio_finite h, toRat_fin_sub]
  exact div_le_div_of_nonneg_right (roundMag_tolerance a b hb) (by positivity)

theorem ofRatio_one_tolerance (neg : Bool) (a : Nat)
    (h : isFinite (ofRatio neg a 1) = true) :
    |toRat (ofRatio neg a 1) - (if neg then -(a : ℚ) else (a : ℚ)) / 2 ^ 1074|
      ≤ (a : ℚ) / 2 ^ 53 / 2 ^ 1074 := by
  rw [ofRatio_finite h, toRat_fin_sub]
  exact div_le_div_of_nonneg_right (roundMag_one_tolerance a) (by positivity)

theorem toRat_add_toRat (s t : Bool) (m n : Nat) :
    toRat (fin s m) + toRat (fin t n) = ((signed s m + signed t n : Int) : ℚ) / 2 ^ 1074 := by
  rw [toRat_fin, toRat_fin, Int.cast_add, add_div]

theorem natAbs_cast_signed (z : Int) :
    (if decide (z < 0) = true then -(z.natAbs : ℚ) else (z.natAbs : ℚ)) = (z : ℚ) := by
  by_cases hn : z < 0
  · simp only [hn, decide_True, if_true]
    rw [Nat.cast_natAbs, abs_of_neg hn]
    push_cast
    ring
  · simp only [hn, decide_False, Bool.false_eq_true, if_false]
    rw [Nat.cast_natAbs, abs_of_nonneg (by omega)]

theorem natAbs_cast_abs (z : Int) : (z.natAbs : ℚ) = |(z : ℚ)| := by
  rw [Nat.cast_natAbs, Int.cast_abs]

/-- The value of a rounded exact sum of `z` units, when finite, is `z` units up
to a relative error of `2^(-53)`. -/
theorem roundSum_tolerance (s : Bool) (z : Int) (h : isFinite (roundSum s z) = true) :
    |toRat (roundSum s z) - (z : ℚ) / 2 ^ 1074| ≤ |(z : ℚ) / 2 ^ 1074| / 2 ^ 53 := by
  unfold roundSum at h ⊢
  by_cases hz : z = 0
  · subst hz
    rw [if_pos rfl, toRat_fin, signed_cast]
    cases s <;> simp
  · rw [if_neg hz] at h ⊢
    have key := ofRatio_one_tolerance (decide (z < 0)) z.natAbs h
    rw [natAbs_cast_signed, natAbs_cast_abs] at key
    rw [abs_div, abs_of_pos (by positivity : (0 : ℚ) < 2 ^ 1074)]
    rw [div_right_comm] at key
    exact key

/-- The operator `+` on finite operands with a finite result returns the exact
sum up to a relative error of `2^(-53)`. -/
theorem add_tolerance (x y : Double) (hx : isFinite x = true) (hy : isFinite y = true)
    (h : isFinite (add x y) = true) :
    |toRat (add x y) - (toRat x + toRat y)| ≤ |toRat x + toRat y| / 2 ^ 53 := by
  cases x with
  | nan => simp [isFinite] at hx
  | inf _ => simp [isFinite] at hx
  | fin s m =>
    cases y with
    | nan => simp [isFinite] at hy
    | inf _ => simp [isFinite] at hy
    | fin t n =>
      rw [add_fin_fin] at h ⊢
      rw [toRat_add_toRat]
      exact roundSum_tolerance _ _ h

theorem toRat_neg (x : Double) : toRat (neg x) = -toRat x := by
  cases x with
  | nan => simp [neg, toRat]
  | inf _ => simp [neg, toRat]
  | fin s m =>
    rw [neg, toRat_fin, toRat_fin, signed_cast, signed_cast, ← neg_div]
    cases s <;> simp

theorem isFinite_neg (x : Double) : isFinite (neg x) = isFinite x := by
  cases x <;> rfl

/-- The operator `-` on finite operands with a finite result returns the exact
difference up to a relative error of `2^(-53)`. -/
theorem sub_tolerance (x y : Double) (hx : isFinite x = true) (hy : isFinite y = true)
    (h : isFinite (sub x y) = true) :
    |toRat (sub x y) - (toRat x - toRat y)| ≤ |toRat x - toRat y| / 2 ^ 53 := by
  have := add_tolerance x (neg y) hx (by rw [isFinite_neg]; exact hy) h
  rw [toRat_neg] at this
  simpa [sub, sub_eq_add_neg] using this

end LearnCpp.Double

namespace LearnCpp.Double

theorem signed_mul_cast (s t : Bool) (m n : ℚ) :
    (if s then -m else m) * (if t then -n else n) = if xor s t then -(m * n) else m * n := by
  cases s <;> cases t <;> simp

theorem signed_div_cast (s t : Bool) (m n : ℚ) :
    (if s then -m else m) / (if t then -n else n) = if xor s t then -(m / n) else m / n := by
  cases s <;> cases t <;> simp [neg_div, div_neg]

theorem half_unit : (1 : ℚ) / 2 / 2 ^ 1074 = 1 / 2 ^ 1075 := by
  have e : (2 : ℚ) ^ 1075 = 2 ^ 1074 * 2 := pow_succ 2 1074
  rw [e, div_div, mul_comm]

theorem max_div_aux (a u v : ℚ) (hu : 0 < u) :
    max (a / v) (1 / 2) / u = max (a / u / v) (1 / 2 / u) := by
  rw [← max_div_div_right (le_of_lt hu), div_right_comm]

theorem abs_signed (s : Bool) (x : ℚ) (hx : 0 ≤ x) : |if s then -x else x| = x := by
  cases s
  · exact abs_of_nonneg hx
  · rw [if_pos rfl, abs_neg]
    exact abs_of_nonneg hx

/-- The operator `*` on finite operands with a finite result returns the exact
product up to a relative error of `2^(-53)`, or up to half the least positive
value, `2^(-1075)`, in the subnormal range. -/
theorem mul_tolerance (x y : Double) (hx : isFinite x = true) (hy : isFinite y = true)
    (h : isFinite (mul x y) = true) :
    |toRat (mul x y) - toRat x * toRat y|
      ≤ max (|toRat x * toRat y| / 2 ^ 53) (1 / 2 ^ 1075) := by
  cases x with
  | nan => simp [isFinite] at hx
  | inf _ => simp [isFinite] at hx
  | fin s m =>
    cases y with
    | nan => simp [isFinite] at hy
    | inf _ => simp [isFinite] at hy
    | fin t n =>
      have hm : mul (fin s m) (fin t n) = ofRatio (xor s t) (m * n) (2 ^ 1074) := rfl
      rw [hm] at h ⊢
      have key := ofRatio_tolerance (xor s t) (m * n) (2 ^ 1074) (Nat.pow_pos (by norm_num)) h
      have hu : (0 : ℚ) < 2 ^ 1074 := by positivity
      have hcast : (((2 ^ 1074 : Nat) : Nat) : ℚ) = (2 : ℚ) ^ 1074 := by
        rw [Nat.cast_pow]
        rfl
      rw [hcast] at key
      have hexact : toRat (fin s m) * toRat (fin t n)
          = (if xor s t then -(((m * n : Nat) : ℚ) / 2 ^ 1074) else ((m * n : Nat) : ℚ) / 2 ^ 1074)
            / 2 ^ 1074 := by
        rw [toRat_fin, toRat_fin, signed_cast, signed_cast, div_mul_div_comm, signed_mul_cast,
          Nat.cast_mul]
        generalize (2 : ℚ) ^ 1074 = u at hu
        cases xor s t
        · simp only [Bool.false_eq_true, if_false]
          rw [div_div]
        · simp only [if_true]
          rw [neg_div, neg_div, div_div]
      have hbound : max (((m * n : Nat) : ℚ) / 2 ^ 1074 / 2 ^ 53) (1 / 2) / 2 ^ 1074
          = max (|toRat (fin s m) * toRat (fin t n)| / 2 ^ 53) (1 / 2 ^ 1075) := by
        rw [hexact, abs_div, abs_of_pos hu,
          abs_signed _ _ (div_nonneg (Nat.cast_nonneg _) (le_of_lt hu)), ← half_unit]
        exact max_div_aux _ _ _ hu
      rw [← hexact, hbound] at key
      exact key

/-- The operator `/` on finite operands with a non-zero divisor and a finite
result returns the exact quotient up to a relative error of `2^(-53)`, or up to
`2^(-1075)` in the subnormal range. -/
theorem div_tolerance (x y : Double) (hx : isFinite x = true) (hy : isFinite y = true)
    (hy0 : toRat y ≠ 0) (h : isFinite (div x y) = true) :
    |toRat (div x y) - toRat x / toRat y|
      ≤ max (|toRat x / toRat y| / 2 ^ 53) (1 / 2 ^ 1075) := by
  cases x with
  | nan => simp [isFinite] at hx
  | inf _ => simp [isFinite] at hx
  | fin s m =>
    cases y with
    | nan => simp [isFinite] at hy
    | inf _ => simp [isFinite] at hy
    | fin t n =>
      have hn : n ≠ 0 := by
        intro e
        apply hy0
        rw [e, toRat_fin, signed_cast]
        cases t <;> simp
      have hd : div (fin s m) (fin t n) = ofRatio (xor s t) (m * 2 ^ 1074) n := by
        simp [div, hn]
      rw [hd] at h ⊢
      have key := ofRatio_tolerance (xor s t) (m * 2 ^ 1074) n (Nat.pos_of_ne_zero hn) h
      have hu : (0 : ℚ) < 2 ^ 1074 := by positivity
      have hnq : (n : ℚ) ≠ 0 := by exact_mod_cast hn
      have hcast : ((m * 2 ^ 1074 : Nat) : ℚ) = (m : ℚ) * 2 ^ 1074 := by
        rw [Nat.cast_mul, Nat.cast_pow]
        rfl
      rw [hcast] at key
      have hq : (m : ℚ) * 2 ^ 1074 / n / 2 ^ 1074 = (m : ℚ) / n := by
        generalize (2 : ℚ) ^ 1074 = u at hu
        field_simp
        ring
      have hexact : toRat (fin s m) / toRat (fin t n)
          = (if xor s t then -((m : ℚ) * 2 ^ 1074 / n) else (m : ℚ) * 2 ^ 1074 / n)
            / 2 ^ 1074 := by
        rw [toRat_fin, toRat_fin, signed_cast, signed_cast,
          div_div_div_cancel_right₀ (ne_of_gt hu), signed_div_cast]
        cases xor s t
        · simp only [Bool.false_eq_true, if_false]
          rw [hq]
        · simp only [if_true]
          rw [neg_div, hq]
      have hbound : max ((m : ℚ) * 2 ^ 1074 / n / 2 ^ 53) (1 / 2) / 2 ^ 1074
          = max (|toRat (fin s m) / toRat (fin t n)| / 2 ^ 53) (1 / 2 ^ 1075) := by
        rw [hexact, abs_div, abs_of_pos hu,
          abs_signed _ _ (div_nonneg (mul_nonneg (Nat.cast_nonneg _) (le_of_lt hu))
            (Nat.cast_nonneg _)), ← half_unit]
        exact max_div_aux _ _ _ hu
      rw [← hexact, hbound] at key
      exact key

end LearnCpp.Double

/-! ### Results are binary64 values -/

namespace LearnCpp.Double

theorem ilog2_lt_of_lt_pow {n k : Nat} (h : n < 2 ^ k) : n = 0 ∨ ilog2 n < k := by
  rcases Nat.eq_zero_or_pos n with h0 | h0
  · exact Or.inl h0
  · right
    have h1 := (ilog2_spec n h0).1
    exact (Nat.pow_lt_pow_iff_right (by norm_num : 1 < 2)).1 (Nat.lt_of_le_of_lt h1 h)

/-- The integer that `roundMag` scales back has at most 53 bits, or is `2^53`. -/
theorem roundMag_factor_le (a b : Nat) (hb : 0 < b) :
    roundHalfEven a (b * 2 ^ roundShift (a / b)) ≤ 2 ^ 53 := by
  have hd : 0 < b * 2 ^ roundShift (a / b) := Nat.mul_pos hb (Nat.pow_pos (by norm_num))
  apply roundHalfEven_le_of_lt hd
  have hq : a / b < 2 ^ (53 + roundShift (a / b)) := by
    rcases Nat.eq_zero_or_pos (a / b) with h0 | h0
    · rw [h0]
      exact Nat.pow_pos (by norm_num)
    · have h1 := (ilog2_spec _ h0).2
      have hl : ilog2 (a / b) + 1 ≤ 53 + roundShift (a / b) := by
        unfold roundShift
        omega
      exact Nat.lt_of_lt_of_le h1 (Nat.pow_le_pow_right (by norm_num) hl)
  have := (Nat.div_lt_iff_lt_mul hb).1 hq
  calc a < 2 ^ (53 + roundShift (a / b)) * b := this
    _ = 2 ^ 53 * (b * 2 ^ roundShift (a / b)) := by ring

/-- A rounded magnitude below the overflow threshold is that of a binary64
value. -/
theorem roundMag_representable (a b : Nat) (hb : 0 < b) (h : roundMag a b < 2 ^ 2098) :
    representable (roundMag a b) = true := by
  unfold representable
  simp only [Bool.and_eq_true, decide_eq_true_eq]
  refine ⟨h, ?_⟩
  have hR := roundMag_factor_le a b hb
  have hM : roundMag a b = roundHalfEven a (b * 2 ^ roundShift (a / b)) * 2 ^ roundShift (a / b) :=
    rfl
  generalize roundHalfEven a (b * 2 ^ roundShift (a / b)) = R at hR hM
  generalize roundShift (a / b) = s at hM
  generalize roundMag a b = M at hM
  rcases Nat.eq_or_lt_of_le hR with hR | hR
  · -- the factor is `2^53`: the magnitude is the power `2^(53+s)`
    have hM' : M = 2 ^ (53 + s) := by
      rw [hM, hR, pow_add]
    have hpos : 1 ≤ M := by
      rw [hM']
      exact Nat.pow_pos (by norm_num)
    have hspec := ilog2_spec M hpos
    have hl : ilog2 M = 53 + s := by
      rw [hM'] at hspec
      have h1 := (Nat.pow_le_pow_iff_right (by norm_num : 1 < 2)).1 hspec.1
      have h2 := (Nat.pow_lt_pow_iff_right (by norm_num : 1 < 2)).1 hspec.2
      rw [hM']
      omega
    have hs : roundShift M = s + 1 := by
      unfold roundShift
      omega
    rw [hs, hM']
    apply Nat.mod_eq_zero_of_dvd
    exact pow_dvd_pow 2 (by omega)
  · have hlt : M < 2 ^ (53 + s) := by
      rw [hM, pow_add]
      exact Nat.mul_lt_mul_of_pos_right hR (Nat.pow_pos (by norm_num))
    have hs : roundShift M ≤ s := by
      rcases ilog2_lt_of_lt_pow hlt with h0 | h0
      · rw [h0]
        simp [roundShift, ilog2_zero]
      · unfold roundShift
        omega
    have hdvd : 2 ^ roundShift M ∣ R * 2 ^ s := Dvd.dvd.mul_left (pow_dvd_pow 2 hs) R
    rw [← hM] at hdvd
    exact Nat.mod_eq_zero_of_dvd hdvd

/-- Every rounded value is a value of the C++ type. -/
theorem ofRatio_isBinary64 (neg : Bool) (a b : Nat) (hb : 0 < b) :
    isBinary64 (ofRatio neg a b) = true := by
  unfold ofRatio
  simp only
  split_ifs with h
  · exact roundMag_representable a b hb h
  · rfl

theorem zero_isBinary64 (s : Bool) : isBinary64 (fin s 0) = true := by
  cases s <;> decide

/-- The operator `+` returns a value of the C++ type. -/
theorem add_isBinary64 (x y : Double) : isBinary64 (add x y) = true := by
  cases x <;> cases y <;> try rfl
  · rename_i s t
    simp only [add]
    split_ifs <;> rfl
  · rw [add_fin_fin]
    unfold roundSum
    split_ifs
    · exact zero_isBinary64 _
    · exact ofRatio_isBinary64 _ _ _ (by norm_num)

/-- The operator `-` returns a value of the C++ type. -/
theorem sub_isBinary64 (x y : Double) : isBinary64 (sub x y) = true :=
  add_isBinary64 x (neg y)

/-- The operator `*` returns a value of the C++ type. -/
theorem mul_isBinary64 (x y : Double) : isBinary64 (mul x y) = true := by
  cases x <;> cases y <;> try rfl
  · simp only [mul]
    split_ifs <;> rfl
  · simp only [mul]
    split_ifs <;> rfl
  · exact ofRatio_isBinary64 _ _ _ (Nat.pow_pos (by norm_num))

/-- The operator `/` returns a value of the C++ type. -/
theorem div_isBinary64 (x y : Double) : isBinary64 (div x y) = true := by
  cases x <;> cases y <;> try rfl
  · rename_i s m t n
    simp only [div]
    split_ifs with h1 h2
    · rfl
    · rfl
    · exact ofRatio_isBinary64 _ _ _ (Nat.pos_of_ne_zero h1)

/-- The conversion from `int` returns a value of the C++ type. -/
theorem ofInt_isBinary64 (i : Int) : isBinary64 (ofInt i) = true :=
  ofRatio_isBinary64 _ _ _ (by norm_num)

end LearnCpp.Double

/-! ### Exact results -/

namespace LearnCpp.Double

/-- A magnitude that is a binary64 value is returned unchanged by rounding. -/
theorem roundMag_exact (m b : Nat) (hb : 0 < b) (hm : m % 2 ^ roundShift m = 0) :
    roundMag (m * b) b = m := by
  have hq : m * b / b = m := Nat.mul_div_cancel m hb
  obtain ⟨k, hk⟩ := Nat.dvd_of_mod_eq_zero hm
  have hpos : 0 < b * 2 ^ roundShift m := Nat.mul_pos hb (Nat.pow_pos (by norm_num))
  have ha : m * b = k * (b * 2 ^ roundShift m) := by
    calc m * b = 2 ^ roundShift m * k * b := by rw [← hk]
      _ = k * (b * 2 ^ roundShift m) := by ring
  unfold roundMag
  simp only [hq]
  have hdiv : m * b / (b * 2 ^ roundShift m) = k := by
    rw [ha]
    exact Nat.mul_div_cancel k hpos
  have hmod : m * b % (b * 2 ^ roundShift m) = 0 := by
    rw [ha]
    exact Nat.mul_mod_left k _
  unfold roundHalfEven
  simp only [hdiv, hmod]
  rw [if_pos (by omega)]
  rw [Nat.mul_comm]
  exact hk.symm

theorem ofRatio_exact (neg : Bool) (m b : Nat) (hb : 0 < b) (hm : representable m = true) :
    ofRatio neg (m * b) b = fin neg m := by
  unfold representable at hm
  simp only [Bool.and_eq_true, decide_eq_true_eq] at hm
  unfold ofRatio
  simp only [roundMag_exact m b hb hm.2]
  rw [if_pos hm.1]

/-- An integer number of whole units below `2^53` is a binary64 magnitude. -/
theorem representable_whole (c : Nat) (hc : c < 2 ^ 53) :
    representable (c * 2 ^ 1074) = true := by
  unfold representable
  simp only [Bool.and_eq_true, decide_eq_true_eq]
  have hlt : c * 2 ^ 1074 < 2 ^ (53 + 1074) := by
    rw [pow_add]
    exact Nat.mul_lt_mul_of_pos_right hc (Nat.pow_pos (by norm_num))
  constructor
  · exact Nat.lt_trans hlt (Nat.pow_lt_pow_right (by norm_num) (by norm_num))
  · have hs : roundShift (c * 2 ^ 1074) ≤ 1074 := by
      rcases ilog2_lt_of_lt_pow hlt with h0 | h0
      · rw [h0]
        simp [roundShift, ilog2_zero]
      · unfold roundShift
        omega
    apply Nat.mod_eq_zero_of_dvd
    exact Dvd.dvd.mul_left (pow_dvd_pow 2 hs) c

/-- The conversion of an `int` below `2^53` in magnitude is exact. -/
theorem ofInt_exact (i : Int) (h : i.natAbs < 2 ^ 53) :
    ofInt i = fin (decide (i < 0)) (i.natAbs * 2 ^ 1074) := by
  unfold ofInt
  have := ofRatio_exact (decide (i < 0)) (i.natAbs * 2 ^ 1074) 1 (by norm_num)
    (representable_whole _ h)
  rw [Nat.mul_one] at this
  exact this

theorem ofInt_one : ofInt 1 = fin false (2 ^ 1074) := by
  have := ofInt_exact 1 (by norm_num)
  simpa using this

/-- Multiplying by `1` returns a binary64 value unchanged. -/
theorem one_mul_binary64 (x : Double) (hx : isBinary64 x = true) : mul (ofInt 1) x = x := by
  rw [ofInt_one]
  cases x with
  | nan => rfl
  | inf s =>
    have h : (2 : Nat) ^ 1074 ≠ 0 := Nat.pos_iff_ne_zero.1 (Nat.pow_pos (by norm_num))
    simp [mul, h]
  | fin s m =>
    show ofRatio (xor false s) (2 ^ 1074 * m) (2 ^ 1074) = fin s m
    rw [Nat.mul_comm, ofRatio_exact _ m _ (Nat.pow_pos (by norm_num)) hx]
    simp

/-- The product of two `int` values is exact when it stays below `2^53` in
magnitude (a zero product of a negative factor is `-0`, so the factors are
taken non-negative when the product is zero). -/
theorem mul_ofInt (a b : Int) (ha : a.natAbs < 2 ^ 53) (hb : b.natAbs < 2 ^ 53)
    (hab : (a * b).natAbs < 2 ^ 53) (hs : a * b ≠ 0 ∨ (0 ≤ a ∧ 0 ≤ b)) :
    mul (ofInt a) (ofInt b) = ofInt (a * b) := by
  rw [ofInt_exact a ha, ofInt_exact b hb, ofInt_exact (a * b) hab]
  show ofRatio (xor (decide (a < 0)) (decide (b < 0)))
    (a.natAbs * 2 ^ 1074 * (b.natAbs * 2 ^ 1074)) (2 ^ 1074) = _
  have e : a.natAbs * 2 ^ 1074 * (b.natAbs * 2 ^ 1074)
      = (a * b).natAbs * 2 ^ 1074 * 2 ^ 1074 := by
    rw [Int.natAbs_mul]
    ring
  rw [e, ofRatio_exact _ _ _ (Nat.pow_pos (by norm_num)) (representable_whole _ hab)]
  congr 1
  rcases hs with hs | ⟨h1, h2⟩
  · have ha0 : a ≠ 0 := fun h => hs (by rw [h, zero_mul])
    have hb0 : b ≠ 0 := fun h => hs (by rw [h, mul_zero])
    by_cases h1 : a < 0 <;> by_cases h2 : b < 0
    · have : ¬ a * b < 0 := not_lt.2 (le_of_lt (mul_pos_of_neg_of_neg h1 h2))
      simp [h1, h2, this]
    · have hbpos : 0 < b := by omega
      have : a * b < 0 := mul_neg_of_neg_of_pos h1 hbpos
      simp [h1, h2, this]
    · have hapos : 0 < a := by omega
      have : a * b < 0 := mul_neg_of_pos_of_neg hapos h2
      simp [h1, h2, this]
    · have hapos : 0 < a := by omega
      have hbpos : 0 < b := by omega
      have : ¬ a * b < 0 := not_lt.2 (le_of_lt (mul_pos hapos hbpos))
      simp [h1, h2, this]
  · have h3 : ¬ a < 0 := by omega
    have h4 : ¬ b < 0 := by omega
    have : ¬ a * b < 0 := not_lt.2 (mul_nonneg h1 h2)
    simp [h3, h4, this]

end LearnCpp.Double

/-! ### The text of a `double` -/

namespace LearnCpp.Double

theorem log10Fuel_spec : ∀ (fuel n : Nat), n ≤ fuel → 1 ≤ n →
    10 ^ log10Fuel fuel n ≤ n ∧ n < 10 ^ (log10Fuel fuel n + 1)
  | 0, n, h, h1 => by omega
  | fuel + 1, n, h, h1 => by
    unfold log10Fuel
    split
    · have ih := log10Fuel_spec fuel (n / 10) (by omega) (by omega)
      rw [pow_succ, pow_succ]
      rw [pow_succ] at ih
      omega
    · simp
      omega

theorem scaleFuel_spec : ∀ (fuel p q : Nat), q ≤ p * 10 ^ fuel →
    q ≤ p * 10 ^ scaleFuel fuel p q ∧
      (scaleFuel fuel p q = 0 ∨ p * 10 ^ (scaleFuel fuel p q - 1) < q)
  | 0, p, q, h => ⟨h, Or.inl rfl⟩
  | fuel + 1, p, q, h => by
    unfold scaleFuel
    split
    · rename_i hpq
      have h' : q ≤ p * 10 * 10 ^ fuel := by
        calc q ≤ p * 10 ^ (fuel + 1) := h
          _ = p * 10 * 10 ^ fuel := by ring
      obtain ⟨ih1, ih2⟩ := scaleFuel_spec fuel (p * 10) q h'
      refine ⟨?_, Or.inr ?_⟩
      · calc q ≤ p * 10 * 10 ^ scaleFuel fuel (p * 10) q := ih1
          _ = p * 10 ^ (scaleFuel fuel (p * 10) q + 1) := by ring
      · rw [Nat.add_sub_cancel]
        rcases ih2 with ih2 | ih2
        · rw [ih2]
          simpa using hpq
        · obtain ⟨e, he⟩ : ∃ e, scaleFuel fuel (p * 10) q = e + 1 :=
            ⟨scaleFuel fuel (p * 10) q - 1, by
              have : scaleFuel fuel (p * 10) q ≠ 0 := by
                intro h0
                rw [h0] at ih1 ih2
                simp at ih1 ih2
                omega
              omega⟩
          rw [he] at ih2 ⊢
          rw [Nat.add_sub_cancel] at ih2
          calc p * 10 ^ (e + 1) = p * 10 * 10 ^ e := by ring
            _ < q := ih2
    · rename_i hpq
      exact ⟨by simpa using Nat.le_of_not_lt hpq, Or.inl rfl⟩

/-- The decimal exponent `x` of a positive ratio `p / q` satisfies
`10^x <= p / q < 10^(x+1)`; the fuel of both searches is enough. -/
theorem decimalExponent_spec (p q : Nat) (hp : 0 < p) (hq : 0 < q) :
    (q ≤ p → 0 ≤ decimalExponent p q ∧
      q * 10 ^ (decimalExponent p q).toNat ≤ p ∧
      p < q * 10 ^ ((decimalExponent p q).toNat + 1)) ∧
    (p < q → decimalExponent p q < 0 ∧
      q ≤ p * 10 ^ (-decimalExponent p q).toNat ∧
      p * 10 ^ ((-decimalExponent p q).toNat - 1) < q) := by
  constructor
  · intro h
    have hx : decimalExponent p q = (log10Fuel (p / q) (p / q) : Nat) := by
      unfold decimalExponent
      rw [if_pos h]
    have hpos : 1 ≤ p / q := (Nat.le_div_iff_mul_le hq).2 (by simpa using h)
    obtain ⟨h1, h2⟩ := log10Fuel_spec (p / q) (p / q) (Nat.le_refl _) hpos
    rw [hx]
    refine ⟨Int.natCast_nonneg _, ?_, ?_⟩
    · rw [Int.toNat_ofNat, Nat.mul_comm]
      exact (Nat.le_div_iff_mul_le hq).1 h1
    · rw [Int.toNat_ofNat, Nat.mul_comm]
      exact (Nat.div_lt_iff_lt_mul hq).1 h2
  · intro h
    have hx : decimalExponent p q = -(scaleFuel q p q : Nat) := by
      unfold decimalExponent
      rw [if_neg (by omega)]
    have hfuel : q ≤ p * 10 ^ q := by
      have h1 : q < 10 ^ q := Nat.lt_pow_self (by norm_num) q
      calc q ≤ 1 * 10 ^ q := by omega
        _ ≤ p * 10 ^ q := Nat.mul_le_mul_right _ hp
    obtain ⟨h1, h2⟩ := scaleFuel_spec q p q hfuel
    have hne : scaleFuel q p q ≠ 0 := by
      intro h0
      rw [h0] at h1
      simp at h1
      omega
    rw [hx]
    refine ⟨by omega, ?_, ?_⟩
    · rw [neg_neg, Int.toNat_ofNat]
      exact h1
    · rw [neg_neg, Int.toNat_ofNat]
      rcases h2 with h2 | h2
      · exact absurd h2 hne
      · exact h2

end LearnCpp.Double

namespace LearnCpp.Double

theorem digitChar_ne_newline (n : Nat) (h : n < 10) : Nat.digitChar n ≠ '\n' := by
  interval_cases n <;> decide

theorem toDigitsCore_no_newline (fuel : Nat) : ∀ (n : Nat) (ds : List Char), '\n' ∉ ds →
    '\n' ∉ Nat.toDigitsCore 10 fuel n ds := by
  induction fuel with
  | zero =>
    intro n ds h
    simpa [Nat.toDigitsCore] using h
  | succ f ih =>
    intro n ds h
    have hd : '\n' ∉ Nat.digitChar (n % 10) :: ds := by
      simp only [List.mem_cons, not_or]
      exact ⟨fun e => digitChar_ne_newline _ (Nat.mod_lt n (by norm_num)) e.symm, h⟩
    unfold Nat.toDigitsCore
    simp only
    split_ifs
    · exact hd
    · exact ih _ _ hd

theorem toDigits_no_newline (n : Nat) : '\n' ∉ Nat.toDigits 10 n :=
  toDigitsCore_no_newline _ _ _ (List.not_mem_nil _)

theorem stripZeros_subset (ds : List Char) : ∀ c ∈ stripZeros ds, c ∈ ds := by
  intro c hc
  unfold stripZeros at hc
  rw [List.mem_reverse] at hc
  exact List.mem_reverse.1 ((List.dropWhile_sublist _).subset hc)

theorem withFraction_no_newline (ip frac : List Char) (h1 : '\n' ∉ ip) (h2 : '\n' ∉ frac) :
    '\n' ∉ withFraction ip frac := by
  unfold withFraction
  split_ifs
  · exact h1
  · simp only [List.mem_append, List.mem_cons, not_or]
    exact ⟨h1, by decide, h2⟩

theorem showMag_no_newline (p q : Nat) : '\n' ∉ showMag p q := by
  unfold showMag
  generalize significand p q = dx
  obtain ⟨d, x⟩ := dx
  have hds := toDigits_no_newline d
  have hstrip : ∀ l : List Char, '\n' ∉ l → '\n' ∉ stripZeros l :=
    fun l hl hc => hl (stripZeros_subset l _ hc)
  have hw : ∀ k : Nat, '\n' ∉ withFraction ((Nat.toDigits 10 d).take k)
      (stripZeros ((Nat.toDigits 10 d).drop k)) :=
    fun k => withFraction_no_newline _ _ (fun h => hds (List.mem_of_mem_take h))
      (hstrip _ (fun h => hds (List.mem_of_mem_drop h)))
  have hsign : '\n' ≠ (if x < 0 then '-' else '+') := by
    split_ifs <;> decide
  have hpad : ∀ e : List Char, '\n' ∉ e → '\n' ∉ (if e.length < 2 then '0' :: e else e) := by
    intro e he
    split_ifs
    · simp only [List.mem_cons, not_or]
      exact ⟨by decide, he⟩
    · exact he
  simp only
  by_cases h1 : x < -4 ∨ 6 ≤ x
  · rw [if_pos h1]
    intro h
    rcases List.mem_append.1 h with h | h
    · exact hw 1 h
    · rcases List.mem_cons.1 h with h | h
      · exact absurd h (by decide)
      · rcases List.mem_cons.1 h with h | h
        · exact hsign h
        · exact hpad _ (toDigits_no_newline _) h
  · rw [if_neg h1]
    by_cases h2 : 0 ≤ x
    · rw [if_pos h2]
      exact hw _
    · rw [if_neg h2]
      intro h
      rcases List.mem_cons.1 h with h | h
      · exact absurd h (by decide)
      · rcases List.mem_cons.1 h with h | h
        · exact absurd h (by decide)
        · rcases List.mem_append.1 h with h | h
          · exact absurd (List.eq_of_mem_replicate h) (by decide)
          · exact hstrip _ hds h

/-- The text of a `double` has no newline. -/
theorem showDouble_no_newline (x : Double) : '\n' ∉ (showDouble x).data := by
  cases x with
  | nan => decide
  | inf s => cases s <;> decide
  | fin s m =>
    unfold showDouble
    simp only [List.mem_append, not_or]
    constructor
    · cases s <;> decide
    · split_ifs
      · decide
      · exact showMag_no_newline _ _

/-- Text appended to the same prefix is the same text. -/
theorem string_append_left_cancel {out a b : String} (h : out ++ a = out ++ b) : a = b := by
  apply String.ext
  have := congrArg String.data h
  simpa using this

end LearnCpp.Double

/-! ### Dec2Bin -/

set_option maxRecDepth 100000

namespace LearnCpp.Dec2Bin

/-- What `printBinary` appends does not depend on the text written before. -/
theorem printBinary_append (out : String) (num : Int) :
    printBinary out num = out ++ printBinary "" num := by
  unfold printBinary
  split
  · apply String.ext; simp
  · apply String.ext
    simp [printAndDecrementBit]

/-- C1: for every `n` with `0 <= n <= 255`, the text `printBinary(n)` prints, with
the space and the trailing newline removed, is a string of eight characters,
each `'0'` or `'1'`, whose value read as a base-2 numeral (most significant digit
first) equals `n`. -/
theorem printBinary_reads_back (out : String) (n : Int) (h0 : 0 ≤ n) (h255 : n ≤ 255) :
    ∃ text : String, printBinary out n = out ++ text ∧
      (stripSeparators text).length = 8 ∧
      (∀ c ∈ stripSeparators text, c = '0' ∨ c = '1') ∧
      (binValue (stripSeparators text) : Int) = n := by
  refine ⟨printBinary "" n, printBinary_append out n, ?_⟩
  interval_cases n <;> decide

theorem printBinary_reads_back_witness :
    ∃ text : String, printBinary "> " 202 = "> " ++ text ∧
      (stripSeparators text).length = 8 ∧
      (∀ c ∈ stripSeparators text, c = '0' ∨ c = '1') ∧
      (binValue (stripSeparators text) : Int) = 202 :=
  printBinary_reads_back "> " 202 (by decide) (by decide)

/-- C2: for every `n` outside `[0,255]`, `printBinary(n)` prints exactly
`"Error! Please enter a valid number!\n"` and nothing else. -/
theorem printBinary_out_of_range (out : String) (n : Int) (h : n < 0 ∨ 255 < n) :
    printBinary out n = out ++ "Error! Please enter a valid number!\n" := by
  unfold printBinary
  rw [if_pos]
  rcases h with h | h
  · have : ¬ (n ≥ 0) := by omega
    simp [this]
  · have : ¬ (n ≤ 255) := by omega
    simp [this]

theorem printBinary_out_of_range_witness :
    printBinary "" 256 = "Error! Please enter a valid number!\n" ∧
    printBinary "" (-1) = "Error! Please enter a valid number!\n" :=
  ⟨printBinary_out_of_range "" 256 (Or.inr (by decide)),
   printBinary_out_of_range "" (-1) (Or.inl (by decide))⟩

/-- C3: for every `n` with `0 <= n <= 255` the text `printBinary(n)` prints has
the form `#### ####` followed by a newline: ten characters, of which characters
1-4 and 6-9 are each `'0'` or `'1'`, character 5 is the only space and character
10 is the newline. In particular `5` prints `"0000 0101\n"` and `255` prints
`"1111 1111\n"`. -/
theorem printBinary_form :
    (∀ (out : String) (n : Int), 0 ≤ n → n ≤ 255 →
      ∃ text : String, printBinary out n = out ++ text ∧
        text.data.length = 10 ∧
        (∀ i ∈ [0, 1, 2, 3, 5, 6, 7, 8], text.data[i]? = some '0' ∨ text.data[i]? = some '1') ∧
        text.data[4]? = some ' ' ∧
        text.data.count ' ' = 1 ∧
        text.data[9]? = some '\n') ∧
    (∀ out : String, printBinary out 5 = out ++ "0000 0101\n") ∧
    (∀ out : String, printBinary out 255 = out ++ "1111 1111\n") := by
  refine ⟨?_, ?_, ?_⟩
  · intro out n h0 h255
    refine ⟨printBinary "" n, printBinary_append out n, ?_⟩
    interval_cases n <;> decide
  · intro out
    rw [printBinary_append]
    have h : printBinary "" 5 = "0000 0101\n" := by decide
    rw [h]
  · intro out
    rw [printBinary_append]
    have h : printBinary "" 255 = "1111 1111\n" := by decide
    rw [h]

theorem printBinary_form_witness :
    ∃ text : String, printBinary "" 170 = "" ++ text ∧
      text.data.length = 10 ∧
      (∀ i ∈ [0, 1, 2, 3, 5, 6, 7, 8], text.data[i]? = some '0' ∨ text.data[i]? = some '1') ∧
      text.data[4]? = some ' ' ∧
      text.data.count ' ' = 1 ∧
      text.data[9]? = some '\n' :=
  printBinary_form.1 "" 170 (by decide) (by decide)

end LearnCpp.Dec2Bin

namespace LearnCpp.Dec2Bin

theorem printAndDecrementBit_ge (out : String) (num p : Int) (h : p ≤ num) :
    printAndDecrementBit out num p = (out.push '1', num - p) := by
  simp [printAndDecrementBit, h]

theorem printAndDecrementBit_lt (out : String) (num p : Int) (h : num < p) :
    printAndDecrementBit out num p = (out.push '0', num) := by
  have : ¬ p ≤ num := by omega
  simp [printAndDecrementBit, this]

/-- In range, `printBinary` is the chain of calls for `128, 64, 32, 16`, the
space, the chain for `8, 4, 2, 1`, and the newline. -/
theorem printBinary_eq_applyPowers (out : String) (n : Int) (h0 : 0 ≤ n) (h255 : n ≤ 255) :
    printBinary out n
      = (applyPowers [8, 4, 2, 1]
          (((applyPowers [128, 64, 32, 16] (out, n)).1.push ' '),
            (applyPowers [128, 64, 32, 16] (out, n)).2)).1.push '\n' := by
  unfold printBinary
  rw [if_neg (by simp [h0, h255])]
  rfl

/-- In range, `printBinary` writes the text of its instrumented `else` branch. -/
theorem printBinaryTrace_fst (out : String) (n : Int) (h0 : 0 ≤ n) (h255 : n ≤ 255) :
    (printBinaryTrace out n).1 = printBinary out n := by
  unfold printBinary
  rw [if_neg (by simp [h0, h255])]
  rfl

/-- The values `num` takes do not depend on the text written before. -/
theorem printBinaryTrace_snd (out : String) (n : Int) :
    (printBinaryTrace out n).2 = (printBinaryTrace "" n).2 := rfl

/-- C11: `printAndDecrementBit(num, p)` prints `'1'` and returns `num - p` when
`num >= p`, and prints `'0'` and returns `num` unchanged when `num < p` (for a
power `p >= 0` and an `int` value `num` the result stays in the range of
`int`); `printBinary` applies it with `p = 128, 64, 32, 16, 8, 4, 2, 1` in that
descending order, each step receiving the value returned by the previous one. -/
theorem printAndDecrementBit_steps :
    (∀ (out : String) (num p : Int), num ≥ p →
      printAndDecrementBit out num p = (out.push '1', num - p)) ∧
    (∀ (out : String) (num p : Int), num < p →
      printAndDecrementBit out num p = (out.push '0', num)) ∧
    (∀ (out : String) (num p : Int), 0 ≤ p → -2 ^ 31 ≤ num → num < 2 ^ 31 →
      -2 ^ 31 ≤ (printAndDecrementBit out num p).2 ∧
        (printAndDecrementBit out num p).2 < 2 ^ 31) ∧
    (∀ (out : String) (n : Int), 0 ≤ n → n ≤ 255 →
      printBinary out n
        = (applyPowers [8, 4, 2, 1]
            (((applyPowers [128, 64, 32, 16] (out, n)).1.push ' '),
              (applyPowers [128, 64, 32, 16] (out, n)).2)).1.push '\n' ∧
      (printBinaryTrace out n).1 = printBinary out n ∧
      (printBinaryTrace out n).2
        = [(applyPowers [128] (out, n)).2, (applyPowers [128, 64] (out, n)).2,
            (applyPowers [128, 64, 32] (out, n)).2, (applyPowers [128, 64, 32, 16] (out, n)).2,
            (applyPowers [128, 64, 32, 16, 8] (out, n)).2,
            (applyPowers [128, 64, 32, 16, 8, 4] (out, n)).2,
            (applyPowers [128, 64, 32, 16, 8, 4, 2] (out, n)).2,
            (applyPowers [128, 64, 32, 16, 8, 4, 2, 1] (out, n)).2]) ∧
    List.Pairwise (fun a b : Int => a > b) ([128, 64, 32, 16] ++ [8, 4, 2, 1]) := by
  refine ⟨fun out num p h => printAndDecrementBit_ge out num p h,
    fun out num p h => printAndDecrementBit_lt out num p h, ?_, ?_, by decide⟩
  · intro out num p hp hlo hhi
    by_cases h : p ≤ num
    · rw [printAndDecrementBit_ge out num p h]
      constructor <;> (simp only; omega)
    · rw [printAndDecrementBit_lt out num p (by omega)]
      exact ⟨hlo, hhi⟩
  · intro out n h0 h255
    exact ⟨printBinary_eq_applyPowers out n h0 h255, printBinaryTrace_fst out n h0 h255, rfl⟩

theorem printAndDecrementBit_steps_witness :
    printAndDecrementBit "" 200 128 = ("".push '1', 200 - 128) ∧
    printAndDecrementBit "" 72 128 = ("".push '0', 72) ∧
    (-2 ^ 31 ≤ (printAndDecrementBit "" 2147483647 1).2 ∧
      (printAndDecrementBit "" 2147483647 1).2 < 2 ^ 31) ∧
    (printBinaryTrace "" 200).1 = printBinary "" 200 :=
  ⟨printAndDecrementBit_steps.1 "" 200 128 (by decide),
   printAndDecrementBit_steps.2.1 "" 72 128 (by decide),
   printAndDecrementBit_steps.2.2.1 "" 2147483647 1 (by decide) (by decide) (by decide),
   (printAndDecrementBit_steps.2.2.2.1 "" 200 (by decide) (by decide)).2.1⟩

/-- C13: for every `n` in `[0,255]`, after `printBinary` has processed the power
of two `p` (`p` running through `128, 64, ..., 1`) the remaining value `r`
satisfies `0 <= r < p`; so it never goes negative and is exactly 0 after the
last step, and `n` equals the sum of the powers of two for which a `'1'` was
printed. -/
theorem printBinary_remaining (out : String) (n : Int) (h0 : 0 ≤ n) (h255 : n ≤ 255) :
    (printBinaryTrace out n).1 = printBinary out n ∧
    List.Forall₂ (fun r p : Int => 0 ≤ r ∧ r < p) (printBinaryTrace out n).2 powers ∧
    (printBinaryTrace out n).2.getLast? = some 0 ∧
    (∃ text : String, printBinary out n = out ++ text ∧
      onesSum (stripSeparators text) = n) := by
  refine ⟨printBinaryTrace_fst out n h0 h255, ?_, ?_, printBinary "" n,
    printBinary_append out n, ?_⟩
  · rw [printBinaryTrace_snd]
    interval_cases n <;> decide
  · rw [printBinaryTrace_snd]
    interval_cases n <;> decide
  · interval_cases n <;> decide

theorem printBinary_remaining_witness :
    (printBinaryTrace "" 77).1 = printBinary "" 77 ∧
    List.Forall₂ (fun r p : Int => 0 ≤ r ∧ r < p) (printBinaryTrace "" 77).2 powers ∧
    (printBinaryTrace "" 77).2.getLast? = some 0 ∧
    (∃ text : String, printBinary "" 77 = "" ++ text ∧
      onesSum (stripSeparators text) = 77) :=
  printBinary_remaining "" 77 (by decide) (by decide)

end LearnCpp.Dec2Bin

/-! ### Calculator -/

namespace LearnCpp.Calculator

open Double

theorem calculateExpression_none (out : String) (num1 num2 : Double) (op : Char)
    (h : calculateResult num1 num2 op = none) :
    calculateExpression out num1 num2 op = out ++ invalidMessage := by
  unfold calculateExpression
  rw [h]
  rfl

theorem calculateExpression_some (out : String) (num1 num2 : Double) (op : Char)
    (result : Double) (h : calculateResult num1 num2 op = some result) :
    calculateExpression out num1 num2 op = out ++ resultLine num1 num2 op result := by
  unfold calculateExpression
  rw [h]
  apply String.ext
  simp [resultLine]

/-- A result line is never the invalid-input message: it contains `" is "`. -/
theorem resultLine_ne_invalidMessage (num1 num2 : Double) (op : Char) (result : Double) :
    resultLine num1 num2 op result ≠ invalidMessage := by
  intro h
  have hd := congrArg String.data h
  have hin : " is ".data <:+: invalidMessage.data := by
    rw [← hd]
    refine ⟨(showDouble num1).data ++ [' ', op, ' '] ++ (showDouble num2).data,
      (showDouble result).data ++ ['\n'], ?_⟩
    simp [resultLine]
  exact absurd hin (by decide)

/-- The `else` branch is reached exactly for an operator outside `+ - * /` and
for `/` with a second operand equal to zero. -/
theorem calculateResult_eq_none_iff (num1 num2 : Double) (op : Char) :
    calculateResult num1 num2 op = none ↔
      (op ≠ '+' ∧ op ≠ '-' ∧ op ≠ '*' ∧ op ≠ '/') ∨ (op = '/' ∧ eq num2 (ofInt 0) = true) := by
  unfold calculateResult ne
  by_cases h1 : op = '+'
  · subst h1; simp
  by_cases h2 : op = '-'
  · subst h2; simp
  by_cases h3 : op = '*'
  · subst h3; simp
  by_cases h4 : op = '/'
  · subst h4; simp
  · simp [h1, h2, h3, h4]

end LearnCpp.Calculator

namespace LearnCpp.Calculator

open Double

/-- C4: for every pair of operands and every operator character,
`calculateExpression` prints the invalid-input message (and no result line) if
and only if the operator is not one of `+ - * /` or it is `/` and the second
operand equals 0; in every other case it prints a result line, which is not the
invalid-input message. Here `num2` equals 0 when `num2 == 0` holds (both zeros of
binary64). -/
theorem calculateExpression_invalid_iff (out : String) (num1 num2 : Double) (op : Char) :
    (calculateExpression out num1 num2 op = out ++ "Invalid input, please try again\n" ↔
      (op ≠ '+' ∧ op ≠ '-' ∧ op ≠ '*' ∧ op ≠ '/') ∨ (op = '/' ∧ eq num2 (ofInt 0) = true)) ∧
    (¬ ((op ≠ '+' ∧ op ≠ '-' ∧ op ≠ '*' ∧ op ≠ '/') ∨ (op = '/' ∧ eq num2 (ofInt 0) = true)) →
      ∃ result : Double,
        calculateExpression out num1 num2 op = out ++ resultLine num1 num2 op result ∧
        resultLine num1 num2 op result ≠ "Invalid input, please try again\n") := by
  have key : ∀ result : Double, calculateResult num1 num2 op = some result →
      calculateExpression out num1 num2 op ≠ out ++ invalidMessage := by
    intro result hr h
    rw [calculateExpression_some out num1 num2 op result hr] at h
    exact resultLine_ne_invalidMessage _ _ _ _ (string_append_left_cancel h)
  refine ⟨⟨?_, ?_⟩, ?_⟩
  · intro h
    rw [← calculateResult_eq_none_iff num1 num2 op]
    cases hr : calculateResult num1 num2 op with
    | none => rfl
    | some result => exact absurd h (key result hr)
  · intro h
    exact calculateExpression_none out num1 num2 op
      ((calculateResult_eq_none_iff num1 num2 op).2 h)
  · intro h
    rw [← calculateResult_eq_none_iff num1 num2 op] at h
    cases hr : calculateResult num1 num2 op with
    | none => exact absurd hr h
    | some result =>
      exact ⟨result, calculateExpression_some out num1 num2 op result hr,
        resultLine_ne_invalidMessage _ _ _ _⟩

theorem calculateExpression_invalid_iff_witness :
    calculateExpression "" (ofInt 5) (ofInt 0) '/' = "" ++ "Invalid input, please try again\n" ∧
    ∃ result : Double,
      calculateExpression "" (ofInt 5) (ofInt 4) '/'
        = "" ++ resultLine (ofInt 5) (ofInt 4) '/' result ∧
      resultLine (ofInt 5) (ofInt 4) '/' result ≠ "Invalid input, please try again\n" :=
  ⟨(calculateExpression_invalid_iff "" (ofInt 5) (ofInt 0) '/').1.2 (Or.inr ⟨rfl, by decide⟩),
   (calculateExpression_invalid_iff "" (ofInt 5) (ofInt 4) '/').2 (by decide)⟩

/-- C5: for all operands `a`, `b` (also `b = 0`) and `op` in `+ - *` the result
`calculateExpression` computes is `a + b`, `a - b`, `a * b` respectively, and
for `/` with `b != 0` it is `a / b`; the line printed is
`<a> <op> <b> is <result>` and a newline, operands in input order and the
operator echoed. The operators are those of binary64: on finite operands with a
finite result they return the exact sum, difference, product or quotient within
the floating-point tolerance (relative error `2^(-53)`, or `2^(-1075)` for a
subnormal product or quotient). Input `5`, `2`, `+` prints `5 + 2 is 7`. -/
theorem calculateExpression_result (out : String) (a b : Double) :
    (calculateResult a b '+' = some (add a b) ∧
      calculateExpression out a b '+'
        = out ++ showDouble a ++ " + " ++ showDouble b ++ " is " ++ showDouble (add a b) ++ "\n") ∧
    (calculateResult a b '-' = some (sub a b) ∧
      calculateExpression out a b '-'
        = out ++ showDouble a ++ " - " ++ showDouble b ++ " is " ++ showDouble (sub a b) ++ "\n") ∧
    (calculateResult a b '*' = some (mul a b) ∧
      calculateExpression out a b '*'
        = out ++ showDouble a ++ " * " ++ showDouble b ++ " is " ++ showDouble (mul a b) ++ "\n") ∧
    (ne b (ofInt 0) = true →
      calculateResult a b '/' = some (div a b) ∧
      calculateExpression out a b '/'
        = out ++ showDouble a ++ " / " ++ showDouble b ++ " is " ++ showDouble (div a b) ++ "\n") ∧
    (isFinite a = true → isFinite b = true →
      (isFinite (add a b) = true →
        |toRat (add a b) - (toRat a + toRat b)| ≤ |toRat a + toRat b| / 2 ^ 53) ∧
      (isFinite (sub a b) = true →
        |toRat (sub a b) - (toRat a - toRat b)| ≤ |toRat a - toRat b| / 2 ^ 53) ∧
      (isFinite (mul a b) = true →
        |toRat (mul a b) - toRat a * toRat b|
          ≤ max (|toRat a * toRat b| / 2 ^ 53) (1 / 2 ^ 1075)) ∧
      (toRat b ≠ 0 → isFinite (div a b) = true →
        |toRat (div a b) - toRat a / toRat b|
          ≤ max (|toRat a / toRat b| / 2 ^ 53) (1 / 2 ^ 1075))) ∧
    calculateExpression "" (ofInt 5) (ofInt 2) '+' = "5 + 2 is 7\n" := by
  have hadd : calculateResult a b '+' = some (add a b) := by simp [calculateResult]
  have hsub : calculateResult a b '-' = some (sub a b) := by simp [calculateResult]
  have hmul : calculateResult a b '*' = some (mul a b) := by simp [calculateResult]
  refine ⟨⟨hadd, ?_⟩, ⟨hsub, ?_⟩, ⟨hmul, ?_⟩, ?_, ?_, by decide⟩
  · rw [calculateExpression_some out a b _ _ hadd]
    apply String.ext
    simp [resultLine]
  · rw [calculateExpression_some out a b _ _ hsub]
    apply String.ext
    simp [resultLine]
  · rw [calculateExpression_some out a b _ _ hmul]
    apply String.ext
    simp [resultLine]
  · intro hb
    have hdiv : calculateResult a b '/' = some (div a b) := by simp [calculateResult, hb]
    refine ⟨hdiv, ?_⟩
    rw [calculateExpression_some out a b _ _ hdiv]
    apply String.ext
    simp [resultLine]
  · intro ha hb
    exact ⟨add_tolerance a b ha hb, sub_tolerance a b ha hb, mul_tolerance a b ha hb,
      fun h0 => div_tolerance a b ha hb h0⟩

theorem calculateExpression_result_witness :
    ne (ofInt 2) (ofInt 0) = true ∧
    calculateResult (ofInt 7) (ofInt 2) '/' = some (div (ofInt 7) (ofInt 2)) ∧
    calculateExpression "" (ofInt 7) (ofInt 2) '/'
      = "" ++ showDouble (ofInt 7) ++ " / " ++ showDouble (ofInt 2) ++ " is "
        ++ showDouble (div (ofInt 7) (ofInt 2)) ++ "\n" :=
  ⟨by decide, (calculateExpression_result "" (ofInt 7) (ofInt 2)).2.2.2.1 (by decide)⟩

end LearnCpp.Calculator

/-! ### Gravity -/

namespace LearnCpp.Gravity

open Double

/-- The distance fallen after `t` seconds as the program computes it,
`gravity * calculateExponent(t, 2) / 2`. -/
theorem calculateHeight_eq (H seconds : Double) :
    calculateHeight H seconds
      = sub H (div (mul gravity (calculateExponent seconds 2)) (ofInt 2)) := rfl

/-- For `t = 0..5` the loop of `calculateExponent` returns the square of `t`
exactly. -/
theorem calculateExponent_two (t : Int) (h0 : 0 ≤ t) (h5 : t ≤ 5) :
    calculateExponent (ofInt t) 2 = ofInt (t ^ 2) := by
  interval_cases t <;> decide

theorem fall_eq (t : Int) (h0 : 0 ≤ t) (h5 : t ≤ 5) :
    div (mul gravity (calculateExponent (ofInt t) 2)) (ofInt 2) = fin false (fallUnits t) := by
  interval_cases t <;> decide

theorem fallUnits_mono (t t' : Int) (h0 : 0 ≤ t) (htt : t ≤ t') (h5 : t' ≤ 5) :
    fallUnits t ≤ fallUnits t' := by
  have h5' : t ≤ 5 := by omega
  interval_cases t <;> interval_cases t' <;> decide

theorem calculateHeight_ofInt (H : Double) (t : Int) (h0 : 0 ≤ t) (h5 : t ≤ 5) :
    calculateHeight H (ofInt t) = sub H (fin false (fallUnits t)) := by
  rw [calculateHeight_eq, fall_eq t h0 h5]

/-- The computed height does not increase from second `t` to a later second. -/
theorem calculateHeight_anti {H : Double} (hH : H ≠ nan) (t t' : Int) (h0 : 0 ≤ t)
    (htt : t ≤ t') (h5 : t' ≤ 5) :
    le (calculateHeight H (ofInt t')) (calculateHeight H (ofInt t)) = true := by
  rw [calculateHeight_ofInt H t h0 (by omega), calculateHeight_ofInt H t' (by omega) h5]
  apply sub_anti_right hH
  have := fallUnits_mono t t' h0 htt h5
  simp only [signed_false]
  exact_mod_cast this

theorem calculateHeight_nan (seconds : Double) : calculateHeight nan seconds = nan := by
  unfold calculateHeight sub
  exact add_nan_left _

/-- What `calculatePrintHeight` appends does not depend on the text written
before. -/
theorem calculatePrintHeight_append (out : String) (H seconds : Double) :
    calculatePrintHeight out H seconds = out ++ calculatePrintHeight "" H seconds := by
  unfold calculatePrintHeight
  simp only
  split <;> (apply String.ext; simp)

theorem calculatePrintHeight_ground (out : String) (H seconds : Double)
    (h : le (calculateHeight H seconds) (fin false 0) = true) :
    calculatePrintHeight out H seconds = out ++ groundLine seconds := by
  unfold calculatePrintHeight groundLine
  simp only [ofDecimal_zero]
  rw [if_pos h]
  apply String.ext
  simp

theorem calculatePrintHeight_height (out : String) (H seconds : Double)
    (h : le (calculateHeight H seconds) (fin false 0) = false) :
    calculatePrintHeight out H seconds
      = out ++ heightLine seconds (calculateHeight H seconds) := by
  unfold calculatePrintHeight heightLine
  simp only [ofDecimal_zero]
  rw [if_neg (by simp [h])]
  apply String.ext
  simp

theorem heightLine_ne_groundLine (seconds height : Double) :
    heightLine seconds height ≠ groundLine seconds := by
  intro h
  have := congrArg String.data h
  simp [heightLine, groundLine] at this

/-- The ground line is printed exactly when the computed height is `<= 0.0`. -/
theorem calculatePrintHeight_ground_iff (out : String) (H seconds : Double) :
    calculatePrintHeight out H seconds = out ++ groundLine seconds
      ↔ le (calculateHeight H seconds) (fin false 0) = true := by
  constructor
  · intro h
    by_contra hn
    have hf : le (calculateHeight H seconds) (fin false 0) = false := by simpa using hn
    rw [calculatePrintHeight_height out H seconds hf] at h
    exact heightLine_ne_groundLine _ _ (string_append_left_cancel h)
  · exact calculatePrintHeight_ground out H seconds

theorem mainLoop_step (H : Double) (m t : Int) (out : String) (h : t ≤ m) :
    mainLoop H m t out = mainLoop H m (t + 1) (calculatePrintHeight out H (ofInt t)) := by
  rw [mainLoop, if_pos h]

theorem mainLoop_done (H : Double) (m t : Int) (out : String) (h : m < t) :
    mainLoop H m t out = out := by
  rw [mainLoop, if_neg (by omega)]

/-- The loop of `main` runs its body for `t = 0, 1, 2, 3, 4, 5` and stops. -/
theorem main_eq (H : Double) :
    main H = "Enter the height of the tower in meters: " ++ printedLine H 0
      ++ printedLine H 1 ++ printedLine H 2 ++ printedLine H 3 ++ printedLine H 4
      ++ printedLine H 5 := by
  unfold main getHeight printedLine
  simp only
  rw [mainLoop_step _ _ 0 _ (by decide), mainLoop_step _ _ (0 + 1) _ (by decide),
    mainLoop_step _ _ (0 + 1 + 1) _ (by decide), mainLoop_step _ _ (0 + 1 + 1 + 1) _ (by decide),
    mainLoop_step _ _ (0 + 1 + 1 + 1 + 1) _ (by decide),
    mainLoop_step _ _ (0 + 1 + 1 + 1 + 1 + 1) _ (by decide),
    mainLoop_done _ _ (0 + 1 + 1 + 1 + 1 + 1 + 1) _ (by decide)]
  rw [calculatePrintHeight_append _ H (ofInt (0 + 1 + 1 + 1 + 1 + 1)),
    calculatePrintHeight_append _ H (ofInt (0 + 1 + 1 + 1 + 1)),
    calculatePrintHeight_append _ H (ofInt (0 + 1 + 1 + 1)),
    calculatePrintHeight_append _ H (ofInt (0 + 1 + 1)),
    calculatePrintHeight_append _ H (ofInt (0 + 1)),
    calculatePrintHeight_append _ H (ofInt 0)]
  apply String.ext
  simp

end LearnCpp.Gravity

namespace LearnCpp.Gravity

open Double

/-- For a finite starting height of `signed s m` units the ball is reported on
the ground at second `t` exactly when the height does not exceed the distance
fallen, `fallUnits t` units. -/
theorem calculateHeight_le_zero_iff (s : Bool) (m : Nat) (t : Int) (h0 : 0 ≤ t) (h5 : t ≤ 5) :
    le (calculateHeight (fin s m) (ofInt t)) (fin false 0) = true
      ↔ signed s m ≤ (fallUnits t : Int) := by
  rw [calculateHeight_ofInt _ t h0 h5]
  show le (add (fin s m) (fin true (fallUnits t))) (fin false 0) = true ↔ _
  rw [add_fin_fin, roundSum_le_zero_iff, signed_true]
  omega

end LearnCpp.Gravity

namespace LearnCpp.Gravity

open Double

theorem showDouble_count_newline (x : Double) : (showDouble x).data.count '\n' = 0 :=
  List.count_eq_zero.2 (showDouble_no_newline x)

theorem groundLine_newlines (seconds : Double) : (groundLine seconds).data.count '\n' = 1 := by
  unfold groundLine
  simp only [String.data_append, List.count_append, showDouble_count_newline]
  decide

theorem heightLine_newlines (seconds height : Double) :
    (heightLine seconds height).data.count '\n' = 1 := by
  unfold heightLine
  simp only [String.data_append, List.count_append, showDouble_count_newline]
  decide

/-- Each call of `calculatePrintHeight` writes one line, the ground line or the
height line of its second. -/
theorem printedLine_cases (H : Double) (t : Int) :
    printedLine H t = groundLine (ofInt t) ∨
      printedLine H t = heightLine (ofInt t) (calculateHeight H (ofInt t)) := by
  unfold printedLine
  cases h : le (calculateHeight H (ofInt t)) (fin false 0) with
  | true =>
    left
    rw [calculatePrintHeight_ground "" H (ofInt t) h]
    apply String.ext
    simp
  | false =>
    right
    rw [calculatePrintHeight_height "" H (ofInt t) h]
    apply String.ext
    simp

theorem printedLine_newlines (H : Double) (t : Int) :
    (printedLine H t).data.count '\n' = 1 := by
  rcases printedLine_cases H t with h | h <;> rw [h]
  · exact groundLine_newlines _
  · exact heightLine_newlines _ _

/-- What `calculatePrintHeight` writes is a line: a text without newline, then
a newline. -/
theorem printedLine_is_line (H : Double) (t : Int) :
    ∃ body : String, printedLine H t = body ++ "\n" ∧ '\n' ∉ body.data := by
  rcases printedLine_cases H t with h | h <;> rw [h]
  · refine ⟨"At " ++ showDouble (ofInt t) ++ " seconds, the ball is on the ground.", ?_, ?_⟩
    · apply String.ext
      simp [groundLine]
    · simp only [String.data_append, List.mem_append, not_or]
      exact ⟨⟨by decide, showDouble_no_newline _⟩, by decide⟩
  · refine ⟨"At " ++ showDouble (ofInt t) ++ " seconds, the ball is at height: "
      ++ showDouble (calculateHeight H (ofInt t)) ++ " meters", ?_, ?_⟩
    · apply String.ext
      simp [heightLine]
    · simp only [String.data_append, List.mem_append, not_or]
      exact ⟨⟨⟨⟨by decide, showDouble_no_newline _⟩, by decide⟩, showDouble_no_newline _⟩,
        by decide⟩

end LearnCpp.Gravity

namespace LearnCpp.Gravity

open Double

theorem fallDistance_eq (t : Int) (h0 : 0 ≤ t) (h5 : t ≤ 5) :
    fallDistance t = fin false (fallUnits t) :=
  fall_eq t h0 h5

/-- The computed height is `<= 0.0` exactly when the starting height is `<=` the
distance fallen, for every starting height (NaN and the infinities included). -/
theorem calculateHeight_le_zero_eq (H : Double) (t : Int) (h0 : 0 ≤ t) (h5 : t ≤ 5) :
    le (calculateHeight H (ofInt t)) (fin false 0) = le H (fallDistance t) := by
  rw [fallDistance_eq t h0 h5]
  cases H with
  | nan =>
    rw [calculateHeight_nan]
    rfl
  | inf s =>
    rw [calculateHeight_ofInt _ t h0 h5]
    cases s <;> rfl
  | fin s m =>
    rw [Bool.eq_iff_iff, calculateHeight_le_zero_iff s m t h0 h5]
    simp [le, signed]

theorem empty_append (s : String) : "" ++ s = s := by
  apply String.ext
  simp

/-- The line of second `t` is the ground line exactly when the starting height is
`<=` the distance fallen after `t` seconds. -/
theorem printedLine_ground_iff (H : Double) (t : Int) (h0 : 0 ≤ t) (h5 : t ≤ 5) :
    printedLine H t = groundLine (ofInt t) ↔ le H (fallDistance t) = true := by
  have h := calculatePrintHeight_ground_iff "" H (ofInt t)
  rw [empty_append, calculateHeight_le_zero_eq H t h0 h5] at h
  exact h

theorem printedLine_height_of_not_le (H : Double) (t : Int) (h0 : 0 ≤ t) (h5 : t ≤ 5)
    (h : le H (fallDistance t) = false) :
    printedLine H t = heightLine (ofInt t) (calculateHeight H (ofInt t)) := by
  rcases printedLine_cases H t with hg | hh
  · rw [printedLine_ground_iff H t h0 h5, h] at hg
    exact absurd hg (by decide)
  · exact hh

/-- The distance fallen does not decrease with the second. -/
theorem le_fallDistance_mono (H : Double) (t t' : Int) (h0 : 0 ≤ t) (htt : t ≤ t') (h5 : t' ≤ 5)
    (h : le H (fallDistance t) = true) : le H (fallDistance t') = true := by
  rw [fallDistance_eq t h0 (by omega)] at h
  rw [fallDistance_eq t' (by omega) h5]
  apply le_trans_double h
  have := fallUnits_mono t t' h0 htt h5
  simp only [le, signed_false, decide_eq_true_eq]
  exact_mod_cast this

/-- A starting height above `0` but not above the distance fallen after five
seconds has a first second, in `1..5`, at which it is not above the distance
fallen. -/
theorem first_ground_second (H : Double) (h0 : le H (fallDistance 0) = false)
    (h5 : le H (fallDistance 5) = true) :
    ∃ t0 : Int, 1 ≤ t0 ∧ t0 ≤ 5 ∧ le H (fallDistance t0) = true ∧
      ∀ t : Int, 0 ≤ t → t < t0 → le H (fallDistance t) = false := by
  cases h1 : le H (fallDistance 1) with
  | true =>
    refine ⟨1, by decide, by decide, h1, ?_⟩
    intro t ht0 ht
    interval_cases t
    exact h0
  | false =>
    cases h2 : le H (fallDistance 2) with
    | true =>
      refine ⟨2, by decide, by decide, h2, ?_⟩
      intro t ht0 ht
      interval_cases t
      · exact h0
      · exact h1
    | false =>
      cases h3 : le H (fallDistance 3) with
      | true =>
        refine ⟨3, by decide, by decide, h3, ?_⟩
        intro t ht0 ht
        interval_cases t
        · exact h0
        · exact h1
        · exact h2
      | false =>
        cases h4 : le H (fallDistance 4) with
        | true =>
          refine ⟨4, by decide, by decide, h4, ?_⟩
          intro t ht0 ht
          interval_cases t
          · exact h0
          · exact h1
          · exact h2
          · exact h3
        | false =>
          refine ⟨5, by decide, by decide, h5, ?_⟩
          intro t ht0 ht
          interval_cases t
          · exact h0
          · exact h1
          · exact h2
          · exact h3
          · exact h4

theorem fallDistance_zero : fallDistance 0 = fin false 0 :=
  fallDistance_eq 0 (by decide) (by decide)

end LearnCpp.Gravity

namespace LearnCpp.Gravity

open Double

theorem calculateExponentCount_eq (base : Double) :
    ∀ (n : Nat) (result : Double) (count : Nat),
      calculateExponentCount base n result count
        = (calculateExponentLoop base n result, count + n)
  | 0, result, count => rfl
  | n + 1, result, count => by
    rw [calculateExponentCount, calculateExponentLoop,
      calculateExponentCount_eq base n (mul result base) (count + 1)]
    congr 1
    omega

/-- One more iteration of the loop multiplies the result once more by `base`. -/
theorem calculateExponentLoop_succ (base : Double) :
    ∀ (n : Nat) (result : Double),
      calculateExponentLoop base (n + 1) result = mul (calculateExponentLoop base n result) base
  | 0, result => rfl
  | n + 1, result => by
    rw [calculateExponentLoop, calculateExponentLoop_succ base n (mul result base)]
    rfl

theorem calculateExponent_eq_powDouble (base : Double) :
    ∀ n : Nat, calculateExponent base n = powDouble base n
  | 0 => rfl
  | n + 1 => by
    unfold calculateExponent
    rw [calculateExponentLoop_succ, powDouble, ← calculateExponent_eq_powDouble base n]
    rfl

theorem calculateExponent_two_eq (base : Double) (h : isBinary64 base = true) :
    calculateExponent base 2 = mul base base := by
  show mul (mul (ofInt 1) base) base = mul base base
  rw [one_mul_binary64 base h]

/-- For an `int` base whose power stays below `2^53` in magnitude the loop
returns the exact power. -/
theorem calculateExponent_ofInt (i : Int) :
    ∀ n : Nat, (i ^ n).natAbs < 2 ^ 53 → calculateExponent (ofInt i) n = ofInt (i ^ n)
  | 0, _ => rfl
  | n + 1, h => by
    have hbound : (i ^ n).natAbs < 2 ^ 53 ∧ i.natAbs < 2 ^ 53 := by
      by_cases h0 : i = 0
      · subst h0
        constructor
        · have h1 : ((0 : Int) ^ n).natAbs ≤ 1 := by
            cases n <;> simp
          exact Nat.lt_of_le_of_lt h1 (by norm_num)
        · norm_num
      · have hpos : 0 < i.natAbs := Int.natAbs_pos.2 h0
        have hpn : 0 < (i ^ n).natAbs := Int.natAbs_pos.2 (pow_ne_zero n h0)
        rw [pow_succ, Int.natAbs_mul] at h
        exact ⟨Nat.lt_of_le_of_lt (Nat.le_mul_of_pos_right _ hpos) h,
          Nat.lt_of_le_of_lt (Nat.le_mul_of_pos_left _ hpn) h⟩
    have ih := calculateExponent_ofInt i n hbound.1
    unfold calculateExponent at ih ⊢
    rw [calculateExponentLoop_succ, ih, pow_succ]
    apply mul_ofInt _ _ hbound.1 hbound.2
    · rw [← pow_succ]
      exact h
    · by_cases h0 : i = 0
      · right
        subst h0
        exact ⟨pow_nonneg (le_refl 0) n, le_refl 0⟩
      · left
        exact mul_ne_zero (pow_ne_zero n h0) h0

end LearnCpp.Gravity

namespace LearnCpp.Gravity

open Double

/-- C6: for every starting height `H` and every integer second `t` in `0..5`,
`calculatePrintHeight(H, t)` prints
`At <t> seconds, the ball is at height: <h> meters` with
`h = H - 9.8 * t^2 / 2` (evaluated in binary64, as the program does) when that
value is strictly positive, and `At <t> seconds, the ball is on the ground.` when
it is less than or equal to 0; a computed height of exactly 0 counts as landed. -/
theorem calculatePrintHeight_line (out : String) (H : Double) (t : Int)
    (h0 : 0 ≤ t) (h5 : t ≤ 5) :
    calculateHeight H (ofInt t)
      = sub H (div (mul (ofDecimal 98 10) (ofInt (t ^ 2))) (ofInt 2)) ∧
    showDouble (ofInt t) = toString t ∧
    (lt (ofInt 0) (calculateHeight H (ofInt t)) = true →
      calculatePrintHeight out H (ofInt t)
        = out ++ "At " ++ toString t ++ " seconds, the ball is at height: "
          ++ showDouble (calculateHeight H (ofInt t)) ++ " meters\n") ∧
    (le (calculateHeight H (ofInt t)) (ofInt 0) = true →
      calculatePrintHeight out H (ofInt t)
        = out ++ "At " ++ toString t ++ " seconds, the ball is on the ground.\n") ∧
    (eq (calculateHeight H (ofInt t)) (ofInt 0) = true →
      calculatePrintHeight out H (ofInt t)
        = out ++ "At " ++ toString t ++ " seconds, the ball is on the ground.\n") := by
  have hshow : showDouble (ofInt t) = toString t := by
    interval_cases t <;> decide
  have hground : le (calculateHeight H (ofInt t)) (ofInt 0) = true →
      calculatePrintHeight out H (ofInt t)
        = out ++ "At " ++ toString t ++ " seconds, the ball is on the ground.\n" := by
    intro h
    rw [ofInt_zero] at h
    rw [calculatePrintHeight_ground out H (ofInt t) h, groundLine, hshow]
    apply String.ext
    simp
  refine ⟨?_, hshow, ?_, hground, ?_⟩
  · rw [calculateHeight_eq, calculateExponent_two t h0 h5]
    rfl
  · intro h
    have hle := lt_imp_not_le h
    rw [ofInt_zero] at hle
    rw [calculatePrintHeight_height out H (ofInt t) hle, heightLine, hshow]
    apply String.ext
    simp
  · intro h
    exact hground (eq_imp_le h)

theorem calculatePrintHeight_line_witness :
    lt (ofInt 0) (calculateHeight (ofInt 100) (ofInt 3)) = true ∧
    calculatePrintHeight "" (ofInt 100) (ofInt 3)
      = "" ++ "At " ++ toString (3 : Int) ++ " seconds, the ball is at height: "
        ++ showDouble (calculateHeight (ofInt 100) (ofInt 3)) ++ " meters\n" ∧
    le (calculateHeight (ofInt 100) (ofInt 5)) (ofInt 0) = true ∧
    calculatePrintHeight "" (ofInt 100) (ofInt 5)
      = "" ++ "At " ++ toString (5 : Int) ++ " seconds, the ball is on the ground.\n" :=
  ⟨by decide,
   (calculatePrintHeight_line "" (ofInt 100) 3 (by decide) (by decide)).2.2.1 (by decide),
   by decide,
   (calculatePrintHeight_line "" (ofInt 100) 5 (by decide) (by decide)).2.2.2.1 (by decide)⟩

/-- C7: for every starting height `H`, `calculateHeight(H, t)` is monotonically
non-increasing in `t` over `t = 0..5` (it never increases, and for `H` other
than NaN the later height is `<=` the earlier one); therefore once the ground
line is printed for a second `t`, it is printed for every later second up to 5. -/
theorem calculateHeight_nonincreasing (H : Double) (t t' : Int)
    (h0 : 0 ≤ t) (htt : t ≤ t') (h5 : t' ≤ 5) :
    lt (calculateHeight H (ofInt t)) (calculateHeight H (ofInt t')) = false ∧
    (H ≠ nan → le (calculateHeight H (ofInt t')) (calculateHeight H (ofInt t)) = true) ∧
    (∀ out out' : String,
      calculatePrintHeight out H (ofInt t) = out ++ groundLine (ofInt t) →
      calculatePrintHeight out' H (ofInt t') = out' ++ groundLine (ofInt t')) := by
  by_cases hH : H = nan
  · subst hH
    refine ⟨?_, fun h => absurd rfl h, ?_⟩
    · rw [calculateHeight_nan, calculateHeight_nan]
      rfl
    · intro out out' h
      rw [calculatePrintHeight_ground_iff, calculateHeight_nan] at h
      simp [le] at h
  · have hle := calculateHeight_anti hH t t' h0 htt h5
    refine ⟨le_imp_not_lt hle, fun _ => hle, ?_⟩
    intro out out' h
    rw [calculatePrintHeight_ground_iff] at h ⊢
    exact Double.le_trans_double hle h

theorem calculateHeight_nonincreasing_witness :
    lt (calculateHeight (ofDecimal 441 10) (ofInt 2)) (calculateHeight (ofDecimal 441 10) (ofInt 4))
      = false ∧
    (ofDecimal 441 10 ≠ nan →
      le (calculateHeight (ofDecimal 441 10) (ofInt 4)) (calculateHeight (ofDecimal 441 10) (ofInt 2))
        = true) ∧
    (∀ out out' : String,
      calculatePrintHeight out (ofDecimal 441 10) (ofInt 2) = out ++ groundLine (ofInt 2) →
      calculatePrintHeight out' (ofDecimal 441 10) (ofInt 4) = out' ++ groundLine (ofInt 4)) :=
  calculateHeight_nonincreasing (ofDecimal 441 10) 2 4 (by decide) (by decide) (by decide)

/-- C8: for every starting height `H` the loop of `main` prints exactly six lines,
one for each `t = 0, 1, 2, 3, 4, 5` in that order, each the ground line or the
height line of its second, whether or not the ball has landed; it does not stop
early and prints nothing for `t > 5`. -/
theorem main_prints_six_lines (H : Double) :
    main H = "Enter the height of the tower in meters: " ++ printedLine H 0
      ++ printedLine H 1 ++ printedLine H 2 ++ printedLine H 3 ++ printedLine H 4
      ++ printedLine H 5 ∧
    (∀ t : Int, (printedLine H t = groundLine (ofInt t) ∨
        printedLine H t = heightLine (ofInt t) (calculateHeight H (ofInt t))) ∧
      ∃ body : String, printedLine H t = body ++ "\n" ∧ '\n' ∉ body.data) ∧
    (main H).data.count '\n' = 6 := by
  refine ⟨main_eq H, fun t => ⟨printedLine_cases H t, printedLine_is_line H t⟩, ?_⟩
  rw [main_eq]
  simp only [String.data_append, List.count_append, printedLine_newlines]
  decide

/-- C9: for every starting height `H <= 0` (in particular every negative `H`)
the input is accepted without any error message, and all six lines, starting
with `t = 0`, are the ground message. -/
theorem main_nonpositive_height (H : Double) (h : le H (ofInt 0) = true) :
    main H = "Enter the height of the tower in meters: "
      ++ "At 0 seconds, the ball is on the ground.\n"
      ++ "At 1 seconds, the ball is on the ground.\n"
      ++ "At 2 seconds, the ball is on the ground.\n"
      ++ "At 3 seconds, the ball is on the ground.\n"
      ++ "At 4 seconds, the ball is on the ground.\n"
      ++ "At 5 seconds, the ball is on the ground.\n" := by
  rw [ofInt_zero] at h
  have hline : ∀ t : Int, 0 ≤ t → t ≤ 5 → printedLine H t = groundLine (ofInt t) := by
    intro t h0 h5
    unfold printedLine
    rw [calculatePrintHeight_ground "" H (ofInt t)]
    · apply String.ext
      simp
    · rw [calculateHeight_ofInt H t h0 h5]
      exact sub_nonneg_le_zero _ h
  rw [main_eq, hline 0 (by decide) (by decide), hline 1 (by decide) (by decide),
    hline 2 (by decide) (by decide), hline 3 (by decide) (by decide),
    hline 4 (by decide) (by decide), hline 5 (by decide) (by decide)]
  have e0 : groundLine (ofInt 0) = "At 0 seconds, the ball is on the ground.\n" := by decide
  have e1 : groundLine (ofInt 1) = "At 1 seconds, the ball is on the ground.\n" := by decide
  have e2 : groundLine (ofInt 2) = "At 2 seconds, the ball is on the ground.\n" := by decide
  have e3 : groundLine (ofInt 3) = "At 3 seconds, the ball is on the ground.\n" := by decide
  have e4 : groundLine (ofInt 4) = "At 4 seconds, the ball is on the ground.\n" := by decide
  have e5 : groundLine (ofInt 5) = "At 5 seconds, the ball is on the ground.\n" := by decide
  rw [e0, e1, e2, e3, e4, e5]

theorem main_nonpositive_height_witness :
    le (ofDecimal 0 1) (ofInt 0) = true ∧ le (ofInt (-3)) (ofInt 0) = true ∧
    main (ofInt (-3)) = "Enter the height of the tower in meters: "
      ++ "At 0 seconds, the ball is on the ground.\n"
      ++ "At 1 seconds, the ball is on the ground.\n"
      ++ "At 2 seconds, the ball is on the ground.\n"
      ++ "At 3 seconds, the ball is on the ground.\n"
      ++ "At 4 seconds, the ball is on the ground.\n"
      ++ "At 5 seconds, the ball is on the ground.\n" :=
  ⟨by decide, by decide, main_nonpositive_height (ofInt (-3)) (by decide)⟩

/-- C10: for `H = 100` the line for `t = 0` reports height 100, the lines for
`t = 1..4` report the positive heights 95.1, 80.4, 55.9 and 21.6, and `t = 5` is
the first and only second in `0..5` that reports the ball on the ground; the
height computed there prints as -22.5 and is `<= 0`. -/
theorem main_height_100 :
    main (ofInt 100) = "Enter the height of the tower in meters: "
      ++ "At 0 seconds, the ball is at height: 100 meters\n"
      ++ "At 1 seconds, the ball is at height: 95.1 meters\n"
      ++ "At 2 seconds, the ball is at height: 80.4 meters\n"
      ++ "At 3 seconds, the ball is at height: 55.9 meters\n"
      ++ "At 4 seconds, the ball is at height: 21.6 meters\n"
      ++ "At 5 seconds, the ball is on the ground.\n" ∧
    calculateHeight (ofInt 100) (ofInt 0) = ofInt 100 ∧
    (∀ t ∈ [0, 1, 2, 3, 4], lt (ofInt 0) (calculateHeight (ofInt 100) (ofInt t)) = true) ∧
    le (calculateHeight (ofInt 100) (ofInt 5)) (ofInt 0) = true ∧
    showDouble (calculateHeight (ofInt 100) (ofInt 5)) = "-22.5" := by
  refine ⟨?_, by decide, by decide, by decide, by decide⟩
  have e0 : printedLine (ofInt 100) 0 = "At 0 seconds, the ball is at height: 100 meters\n" := by
    decide
  have e1 : printedLine (ofInt 100) 1 = "At 1 seconds, the ball is at height: 95.1 meters\n" := by
    decide
  have e2 : printedLine (ofInt 100) 2 = "At 2 seconds, the ball is at height: 80.4 meters\n" := by
    decide
  have e3 : printedLine (ofInt 100) 3 = "At 3 seconds, the ball is at height: 55.9 meters\n" := by
    decide
  have e4 : printedLine (ofInt 100) 4 = "At 4 seconds, the ball is at height: 21.6 meters\n" := by
    decide
  have e5 : printedLine (ofInt 100) 5 = "At 5 seconds, the ball is on the ground.\n" := by
    decide
  rw [main_eq, e0, e1, e2, e3, e4, e5]

end LearnCpp.Gravity

namespace LearnCpp.Gravity

open Double

/-- C12: for every base and every non-negative exponent `n` the loop of
`calculateExponent` ends after exactly `n` multiplications and returns `base^n`,
the product of `n` factors `base` in binary64 (the exact power for an `int` base
when it stays below `2^53` in magnitude), with `calculateExponent(base, 0) = 1`
also for `base = 0`; in particular `calculateExponent(t, 2) = t * t`, the value
`calculateHeight` uses. -/
theorem calculateExponent_loop (base : Double) (n : Nat) :
    calculateExponentCount base n (ofInt 1) 0 = (calculateExponent base n, n) ∧
    calculateExponent base n = powDouble base n ∧
    (∀ i : Int, (i ^ n).natAbs < 2 ^ 53 → calculateExponent (ofInt i) n = ofInt (i ^ n)) ∧
    calculateExponent base 0 = ofInt 1 ∧
    calculateExponent (ofInt 0) 0 = ofInt 1 ∧
    (isBinary64 base = true → calculateExponent base 2 = mul base base) ∧
    (∀ H : Double, calculateHeight H base
      = sub H (div (mul gravity (calculateExponent base 2)) (ofInt 2))) := by
  refine ⟨?_, calculateExponent_eq_powDouble base n,
    fun i h => calculateExponent_ofInt i n h, rfl, rfl,
    fun h => calculateExponent_two_eq base h, fun H => rfl⟩
  rw [calculateExponentCount_eq, Nat.zero_add]
  rfl

theorem calculateExponent_loop_witness :
    ((3 : Int) ^ 4).natAbs < 2 ^ 53 ∧
    calculateExponent (ofInt 3) 4 = ofInt (3 ^ 4) ∧
    isBinary64 (ofDecimal 15 10) = true ∧
    calculateExponent (ofDecimal 15 10) 2 = mul (ofDecimal 15 10) (ofDecimal 15 10) :=
  ⟨by decide, (calculateExponent_loop (ofInt 3) 4).2.2.1 3 (by decide), by decide,
   (calculateExponent_loop (ofDecimal 15 10) 2).2.2.2.2.2.1 (by decide)⟩

/-- C14, the claim as stated fails: the `double` after `122.5`, which is
`122.5 + 2^(-46)` and is read from the input `122.50000000000001`, is greater
than `122.5`, and the line for `t = 5` is the ground line. -/
theorem ground_threshold_counterexample :
    isBinary64 (fin false (245 * 2 ^ 1073 + 2 ^ 1028)) = true ∧
    ofDecimal 12250000000000001 100000000000000 = fin false (245 * 2 ^ 1073 + 2 ^ 1028) ∧
    ofDecimal 1225 10 = fin false (245 * 2 ^ 1073) ∧
    lt (ofDecimal 1225 10) (fin false (245 * 2 ^ 1073 + 2 ^ 1028)) = true ∧
    printedLine (fin false (245 * 2 ^ 1073 + 2 ^ 1028)) 5
      = "At 5 seconds, the ball is on the ground.\n" ∧
    ¬ (∀ H : Double, lt (ofDecimal 1225 10) H = true →
        ∀ t : Int, 0 ≤ t → t ≤ 5 →
          printedLine H t = heightLine (ofInt t) (calculateHeight H (ofInt t))) := by
  refine ⟨by decide, by decide, by decide, by decide, by decide, ?_⟩
  intro h
  have h5 := h (fin false (245 * 2 ^ 1073 + 2 ^ 1028)) (by decide) 5 (by decide) (by decide)
  have hg : printedLine (fin false (245 * 2 ^ 1073 + 2 ^ 1028)) 5 = groundLine (ofInt 5) := by
    decide
  rw [hg] at h5
  exact heightLine_ne_groundLine _ _ h5.symm

/-- C14 as amended: with `d t` the binary64 value the program computes for
`9.8 * t^2 / 2` (equal to the binary64 product `4.9 * t^2`), the ball is reported
on the ground at some `t` in `0..5` if and only if `H <= d 5`, where `d 5` is
`122.5 + 2^(-46)`, the `double` after `122.5`; for every `H > d 5` all six lines
are height lines; and for `0 < H <= d 5` the first ground line is at the least
`t` in `1..5` with `H <= d t`. -/
theorem ground_threshold (H : Double) :
    ((∃ t : Int, 0 ≤ t ∧ t ≤ 5 ∧ printedLine H t = groundLine (ofInt t))
      ↔ le H (fallDistance 5) = true) ∧
    (lt (fallDistance 5) H = true →
      ∀ t : Int, 0 ≤ t → t ≤ 5 →
        printedLine H t = heightLine (ofInt t) (calculateHeight H (ofInt t))) ∧
    (lt (ofInt 0) H = true → le H (fallDistance 5) = true →
      ∃ t0 : Int, 1 ≤ t0 ∧ t0 ≤ 5 ∧ le H (fallDistance t0) = true ∧
        (∀ t : Int, 1 ≤ t → t ≤ 5 → le H (fallDistance t) = true → t0 ≤ t) ∧
        (∀ t : Int, 0 ≤ t → t < t0 →
          printedLine H t = heightLine (ofInt t) (calculateHeight H (ofInt t))) ∧
        (∀ t : Int, t0 ≤ t → t ≤ 5 → printedLine H t = groundLine (ofInt t))) ∧
    fallDistance 5 = fin false (245 * 2 ^ 1073 + 2 ^ 1028) ∧
    (∀ t : Int, 0 ≤ t → t ≤ 5 → fallDistance t = mul (ofDecimal 49 10) (ofInt (t ^ 2))) := by
  refine ⟨⟨?_, ?_⟩, ?_, ?_, by decide, ?_⟩
  · rintro ⟨t, h0, h5, hg⟩
    rw [printedLine_ground_iff H t h0 h5] at hg
    exact le_fallDistance_mono H t 5 h0 h5 (by decide) hg
  · intro h
    exact ⟨5, by decide, by decide, (printedLine_ground_iff H 5 (by decide) (by decide)).2 h⟩
  · intro h t h0 h5
    apply printedLine_height_of_not_le H t h0 h5
    cases hle : le H (fallDistance t) with
    | false => rfl
    | true =>
      have h1 := le_fallDistance_mono H t 5 h0 h5 (by decide) hle
      rw [le_imp_not_lt h1] at h
      exact absurd h (by decide)
  · intro hpos h5
    have h0 : le H (fallDistance 0) = false := by
      rw [fallDistance_zero, ← ofInt_zero]
      exact lt_imp_not_le hpos
    obtain ⟨t0, h1, h2, hle, hmin⟩ := first_ground_second H h0 h5
    refine ⟨t0, h1, h2, hle, ?_, ?_, ?_⟩
    · intro t ht1 ht5 htle
      by_contra hlt
      have := hmin t (by omega) (by omega)
      rw [htle] at this
      exact absurd this (by decide)
    · intro t ht0 htlt
      exact printedLine_height_of_not_le H t ht0 (by omega) (hmin t ht0 htlt)
    · intro t ht0 ht5
      rw [printedLine_ground_iff H t (by omega) ht5]
      exact le_fallDistance_mono H t0 t (by omega) ht0 ht5 hle
  · intro t h0 h5
    interval_cases t <;> decide

theorem ground_threshold_witness :
    lt (fallDistance 5) (ofInt 123) = true ∧
    (∀ t : Int, 0 ≤ t → t ≤ 5 →
      printedLine (ofInt 123) t
        = heightLine (ofInt t) (calculateHeight (ofInt 123) (ofInt t))) ∧
    lt (ofInt 0) (ofInt 100) = true ∧ le (ofInt 100) (fallDistance 5) = true ∧
    (∃ t0 : Int, 1 ≤ t0 ∧ t0 ≤ 5 ∧ le (ofInt 100) (fallDistance t0) = true ∧
      (∀ t : Int, 1 ≤ t → t ≤ 5 → le (ofInt 100) (fallDistance t) = true → t0 ≤ t) ∧
      (∀ t : Int, 0 ≤ t → t < t0 →
        printedLine (ofInt 100) t
          = heightLine (ofInt t) (calculateHeight (ofInt 100) (ofInt t))) ∧
      (∀ t : Int, t0 ≤ t → t ≤ 5 → printedLine (ofInt 100) t = groundLine (ofInt t))) :=
  ⟨by decide, (ground_threshold (ofInt 123)).2.1 (by decide), by decide, by decide,
   (ground_threshold (ofInt 100)).2.2.1 (by decide) (by decide)⟩

end LearnCpp.Gravity
